import Mathlib

/-!
Verification of the numerical optimization core of `noc`
(`noc/differential_dynamic_programming.py`): a regularized DDP Newton solver
wrapped in an interior-point barrier continuation.

Modelling conventions (shallow embedding):
* IEEE floating point scalars are modelled as real numbers `ℝ`; the
  `jnp.inf` cost assigned to infeasible candidates is modelled by `EReal`
  (so `+∞` is `⊤`).
* Stage-indexed `jax` arrays are modelled as `List`s; `jax.lax.scan`
  (forward and `reverse=True`) is modelled by structural recursion over the
  list of stages, and `jax.vmap` by `List.zipWith`.
* `jax.lax.while_loop` is modelled by the fueled iteration `iterWhile`.
  Both while loops of `ddp` increment an integer counter on every body
  execution and their conditions force an exit as soon as the counter
  exceeds 500, so every run performs at most 501 body executions; a fuel of
  502 therefore yields exactly the semantics of the unbounded loop (the
  stabilization lemmas below prove fuel-independence past that point).
  The continuation loop of `interior_point_ddp` starts from barrier 0.1 and
  divides by 5 each step, exiting once the barrier is at most 1e-4, which
  happens after exactly 5 bodies; fuel 6 is likewise exact.
* Automatic differentiation (`jax.grad`, `jax.hessian`, `jax.jacrev`) is an
  external collaborator of the core; it is modelled by a `DiffOracle`
  supplying the per-stage derivative tensors and the final-cost
  gradient/Hessian that the code obtains from `jax`.
* `jnp.linalg.solve (A, b)` is modelled as `A⁻¹ *ᵥ b` (with Mathlib's total
  matrix inverse, which agrees with the solve whenever `A` is invertible),
  and the `jnp.linalg.eigh`-based check `all(eig_vals > 0)` — which treats
  its input as symmetric — is modelled as `Matrix.PosDef`, which for
  symmetric real matrices is equivalent to all eigenvalues being positive
  (proved below in both directions).
-/

open Matrix Classical

noncomputable section

/-- Real coordinate vectors, modelling 1-d `jnp` arrays. -/
abbrev Vec (p : ℕ) := Fin p → ℝ

/-- Real matrices, modelling 2-d `jnp` arrays. -/
abbrev Mat (p q : ℕ) := Matrix (Fin p) (Fin q) ℝ

/-- Contraction `jnp.tensordot (v, T, axes=1)` of a vector with the leading
axis of a third-order tensor. -/
def tdot {p q r : ℕ} (v : Vec p) (T : Fin p → Mat q r) : Mat q r :=
  ∑ a, v a • T a

/-- Model of `jnp.clip (x, lo, hi)`. -/
def clip (x lo hi : ℝ) : ℝ := min (max x lo) hi

/-- Division of an extended real by a real, modelling the float division
`actual_reduction / pred_reduction`.  Division by zero is sent to `0`: in
IEEE arithmetic that case produces `nan`, `+∞/±0 = ±∞` with the sign of the
zero (the predicted reduction is a sum of terms `-0.5 * q`, hence `-0.0`
when it vanishes), or `0/0 = nan`; in every case that the solver's
acceptance test `gain_ratio > 0` can reach, the test fails, exactly as it
does for the value `0`. -/
def ediv (a : EReal) (b : ℝ) : EReal :=
  if b = 0 then 0 else a * (((b⁻¹ : ℝ) : EReal))

/-- Model of `jax.lax.scan (f, c, xs, reverse=True)`: the carry is threaded
from the last stage to the first, and the stacked outputs keep the original
stage order. -/
def scanr {γ α β : Type*} (f : γ → α → γ × β) : γ → List α → γ × List β
  | cinit, [] => (cinit, [])
  | cinit, a :: as =>
    let r := scanr f cinit as
    let s := f r.1 a
    (s.1, s.2 :: r.2)

/-- Fueled iteration modelling `jax.lax.while_loop (cond, body, init)`.
Whenever the loop provably exits within the given fuel, this is exactly the
while loop's result (see `iterWhile_stable`). -/
def iterWhile {α : Type*} (cond : α → Prop) (body : α → α) : ℕ → α → α
  | 0, s => s
  | (f + 1), s => if cond s then iterWhile cond body f (body s) else s

/-- Per-stage derivative bundle: the ten tensors produced for one stage by
the differentiation collaborator (`body` inside `compute_derivatives`). -/
structure Deriv (n m : ℕ) where
  cx : Vec n
  cu : Vec m
  cxx : Mat n n
  cuu : Mat m m
  cxu : Mat n m
  fx : Mat n n
  fu : Mat n m
  fxx : Fin n → Mat n n
  fuu : Fin n → Mat m m
  fxu : Fin n → Mat n m

/-- Optimal control problem: the immutable bundle of the five user-supplied
pure functions (`noc.optimal_control_problem.OCP`). -/
structure OCPm (n m c : ℕ) where
  dynamics : Vec n → Vec m → Vec n
  constraints : Vec n → Vec m → Vec c
  stage_cost : Vec n → Vec m → ℝ → ℝ
  final_cost : Vec n → ℝ
  total_cost : List (Vec n) → List (Vec m) → ℝ → ℝ

/-- Model of the external automatic-differentiation collaborator: per-stage
derivative tensors of the stage cost and dynamics, and gradient/Hessian of
the final cost.  The core only consumes these as already-computed tensors
(spec §1, §6). -/
structure DiffOracle (n m : ℕ) where
  stage : Vec n → Vec m → ℝ → Deriv n m
  gradFinal : Vec n → Vec n
  hessFinal : Vec n → Mat n n

/-- Stacked per-stage outputs of the backward-pass scan
`(k, K, dV, pos_def, Qu)`.  The field `QuuReg` additionally records the
regularized `Quu` matrix the stage used for its positive-definiteness check
and linear solves (a specification ghost field; the Python tuple does not
return it). -/
structure BwdOut (n m : ℕ) where
  ff : Vec m
  gain : Mat m n
  dV : ℝ
  posdef : Prop
  Qu : Vec m
  QuuReg : Mat m m

/-- Default element used for positional access into output lists. -/
def bwdOutDefault (n m : ℕ) : BwdOut n m := ⟨0, 0, 0, True, 0, 0⟩

/-- Model of `compute_derivatives`: `jax.vmap (body) (states[:-1], controls)`,
one derivative bundle per stage, evaluated at the nominal trajectory. -/
def compute_derivatives {n m : ℕ} (O : DiffOracle n m)
    (states : List (Vec n)) (controls : List (Vec m)) (bp : ℝ) :
    List (Deriv n m) :=
  List.zipWith (fun x u => O.stage x u bp) states.dropLast controls

/-- Frobenius norm `jnp.linalg.norm (d.cu)` of the stacked control-cost
gradients. -/
def cuNorm {n m : ℕ} (ds : List (Deriv n m)) : ℝ :=
  Real.sqrt ((ds.map (fun d => ∑ i, (d.cu i) ^ 2)).sum)

/-- Body of the backward-pass scan (`body` inside `bwd_pass`), executed at
one stage with the value-function carry `(Vx, Vxx)` of the next stage. -/
def bwdStep {n m : ℕ} (reg : ℝ) (carry : Vec n × Mat n n) (d : Deriv n m) :
    (Vec n × Mat n n) × BwdOut n m :=
  let Vx := carry.1
  let Vxx := carry.2
  let Qx := d.cx + d.fxᵀ *ᵥ Vx
  let Qu := d.cu + d.fuᵀ *ᵥ Vx
  let Qxx := d.cxx + d.fxᵀ * Vxx * d.fx + tdot Vx d.fxx
  let Qxu := d.cxu + d.fxᵀ * Vxx * d.fu + tdot Vx d.fxu
  let Quu := (d.cuu + d.fuᵀ * Vxx * d.fu + tdot Vx d.fuu) + reg • (1 : Mat m m)
  let pd : Prop := Quu.PosDef
  let kff := -(Quu⁻¹ *ᵥ Qu)
  let K := -(Quu⁻¹ * Qxuᵀ)
  let dV := -(1 / 2) * (Qu ⬝ᵥ (Quu⁻¹ *ᵥ Qu))
  let Vx' := Qx - Qu ᵥ* (Quu⁻¹ * Qxuᵀ)
  let Vxx' := Qxx - Qxu * (Quu⁻¹ * Qxuᵀ)
  ((Vx', Vxx'), ⟨kff, K, dV, pd, Qu, Quu⟩)

/-- Model of `bwd_pass`: the reverse scan over the derivative bundles with
the value function initialized from the final-cost gradient/Hessian (which
the Python code obtains from the differentiation collaborator as
`grad(final_cost)(final_state)` and `hessian(final_cost)(final_state)`).
Returns the stacked stage outputs, the summed predicted reduction
`jnp.sum (cost_diff)`, and the conjoined feasibility flag
`jnp.all (feasible_bwd_pass)`. -/
def bwd_pass {n m : ℕ} (VxT : Vec n) (VxxT : Mat n n)
    (ds : List (Deriv n m)) (rp : ℝ) :
    List (BwdOut n m) × ℝ × Prop :=
  let reg := rp * cuNorm ds
  let outs := (scanr (bwdStep reg) (VxT, VxxT) ds).2
  (outs, (outs.map BwdOut.dV).sum, ∀ o ∈ outs, o.posdef)

/-- Forward scan of `nonlin_rollout` over the zipped per-stage inputs
`(gain, ffgain, nominal_state, nominal_control)`, carrying the simulated
state; the final carry is appended to the stacked states (`jnp.vstack`). -/
def rolloutScan {n m : ℕ} (dyn : Vec n → Vec m → Vec n) :
    Vec n → List (Mat m n) → List (Vec m) → List (Vec n) → List (Vec m) →
    List (Vec n) × List (Vec m)
  | xh, K :: Ks, kf :: kfs, x :: xs, u :: us =>
    let uh := u + kf + K *ᵥ (xh - x)
    let r := rolloutScan dyn (dyn xh uh) Ks kfs xs us
    (xh :: r.1, uh :: r.2)
  | xh, _, _, _, _ => ([xh], [])

/-- Model of `nonlin_rollout`: simulate forward from the nominal initial
state under the affine feedback policy. -/
def nonlin_rollout {n m : ℕ} (dyn : Vec n → Vec m → Vec n)
    (gains : List (Mat m n)) (ffs : List (Vec m))
    (xs : List (Vec n)) (us : List (Vec m)) :
    List (Vec n) × List (Vec m) :=
  rolloutScan dyn (xs.headD 0) gains ffs xs.dropLast us

/-- Model of `check_feasibility`: `jnp.all (vmap constraints (x[:-1], u) ≤ 0)`. -/
def check_feasibility {n m c : ℕ} (ocp : OCPm n m c)
    (xs : List (Vec n)) (us : List (Vec m)) : Prop :=
  ∀ p ∈ List.zipWith (fun x u => ocp.constraints x u) xs.dropLast us,
    ∀ i, p i ≤ 0

/-- Cost assigned to a candidate trajectory:
`jnp.where (check_feasibility …, total_cost …, jnp.inf)`. -/
def candCost {n m c : ℕ} (ocp : OCPm n m c) (bp : ℝ)
    (xs : List (Vec n)) (us : List (Vec m)) : EReal :=
  if check_feasibility ocp xs us then ((ocp.total_cost xs us bp : ℝ) : EReal)
  else ⊤

/-- Maximum absolute entry `jnp.max (jnp.abs (Hu))` over the stacked
control gradients of the Hamiltonian. -/
def huNorm {n m : ℕ} (outs : List (BwdOut n m)) : ℝ :=
  (outs.map (fun o => (List.ofFn (fun i => |o.Qu i|)).foldr max 0)).foldr max 0

/-- Loop-carried value of the globalization (inner) loop of `ddp`:
`(temp_x, temp_u, succesful_minimzation, Hu_norm, rp, r_inc, inner_it_counter)`. -/
structure InnerVal (n m : ℕ) where
  xs : List (Vec n)
  us : List (Vec m)
  succ : Prop
  hu : ℝ
  rp : ℝ
  rinc : ℝ
  counter : ℕ

/-- Loop-carried value of the Newton (outer) loop of `ddp`:
`(x, u, iterations, reg_param, reg_inc, Hamiltonian_norm)`. -/
structure OuterVal (n m : ℕ) where
  xs : List (Vec n)
  us : List (Vec m)
  iters : ℕ
  rp : ℝ
  rinc : ℝ
  hu : ℝ

/-- Backward pass performed by one globalization-loop iteration: its
final-cost gradient/Hessian are obtained from the differentiation
collaborator at the last nominal state `x[-1]`. -/
def innerBwd {n m : ℕ} (O : DiffOracle n m) (xs : List (Vec n))
    (ds : List (Deriv n m)) (rp : ℝ) :
    List (BwdOut n m) × ℝ × Prop :=
  bwd_pass (O.gradFinal (xs.getD (xs.length - 1) 0))
    (O.hessFinal (xs.getD (xs.length - 1) 0)) ds rp

/-- Candidate trajectory `(temp_x, temp_u)` produced by one
globalization-loop iteration at regularization `rp`. -/
def innerCandidate {n m c : ℕ} (ocp : OCPm n m c) (O : DiffOracle n m)
    (xs : List (Vec n)) (us : List (Vec m)) (ds : List (Deriv n m))
    (rp : ℝ) : List (Vec n) × List (Vec m) :=
  nonlin_rollout ocp.dynamics ((innerBwd O xs ds rp).1.map BwdOut.gain)
    ((innerBwd O xs ds rp).1.map BwdOut.ff) xs us

/-- Gain ratio `actual_reduction / pred_reduction` of one
globalization-loop iteration (with the `+∞` candidate cost of infeasible
candidates). -/
def innerRatio {n m c : ℕ} (ocp : OCPm n m c) (O : DiffOracle n m)
    (bp : ℝ) (xs : List (Vec n)) (us : List (Vec m)) (cost : ℝ)
    (ds : List (Deriv n m)) (rp : ℝ) : EReal :=
  ediv (candCost ocp bp (innerCandidate ocp O xs us ds rp).1
      (innerCandidate ocp O xs us ds rp).2 - ((cost : ℝ) : EReal))
    (innerBwd O xs ds rp).2.1

/-- Acceptance test `succesful_minimzation` of one globalization-loop
iteration: gain ratio positive and backward pass positive definite
throughout. -/
def innerAccept {n m c : ℕ} (ocp : OCPm n m c) (O : DiffOracle n m)
    (bp : ℝ) (xs : List (Vec n)) (us : List (Vec m)) (cost : ℝ)
    (ds : List (Deriv n m)) (rp : ℝ) : Prop :=
  0 < innerRatio ocp O bp xs us cost ds rp ∧ (innerBwd O xs ds rp).2.2

/-- Body of the globalization loop (`while_inner_loop` inside `ddp`).  The
nominal trajectory `xs, us`, its cost, the derivative bundles and the outer
growth multiplier `reg_inc` are captured from the enclosing Newton-loop
body; note that the rejection branch multiplies by this captured `reg_inc`,
not by the loop-carried `r_inc`. -/
def while_inner_loop {n m c : ℕ} (ocp : OCPm n m c) (O : DiffOracle n m)
    (bp : ℝ) (xs : List (Vec n)) (us : List (Vec m)) (cost : ℝ)
    (ds : List (Deriv n m)) (reg_inc : ℝ) (v : InnerVal n m) : InnerVal n m :=
  let tr := innerCandidate ocp O xs us ds v.rp
  let succ : Prop := innerAccept ocp O bp xs us cost ds v.rp
  let rp1 : ℝ :=
    if succ then v.rp * max (1 / 3)
      (1 - (2 * (innerRatio ocp O bp xs us cost ds v.rp).toReal - 1) ^ 3)
    else v.rp * reg_inc
  let rinc1 : ℝ := if succ then 2 else 2 * v.rinc
  ⟨tr.1, tr.2, succ, huNorm (innerBwd O xs ds v.rp).1,
    clip rp1 (1e-16) (1e16), rinc1, v.counter + 1⟩

/-- Exit test of the globalization loop (`while_inner_cond`): continue while
neither accepted nor past the iteration cap. -/
def while_inner_cond {n m : ℕ} (v : InnerVal n m) : Prop :=
  ¬(v.succ ∨ v.counter > 500)

/-- Body of the Newton loop (`while_body` inside `ddp`): recompute the cost
and derivatives at the current nominal trajectory, run the globalization
loop, and adopt its result. -/
def while_body {n m c : ℕ} (ocp : OCPm n m c) (O : DiffOracle n m) (bp : ℝ)
    (v : OuterVal n m) : OuterVal n m :=
  let cost := ocp.total_cost v.xs v.us bp
  let ds := compute_derivatives O v.xs v.us bp
  let r := iterWhile while_inner_cond
    (while_inner_loop ocp O bp v.xs v.us cost ds v.rinc) 502
    ⟨v.xs, v.us, False, 0, v.rp, v.rinc, 0⟩
  ⟨r.xs, r.us, v.iters + 1, r.rp, r.rinc, r.hu⟩

/-- Exit test of the Newton loop (`while_cond`): continue while the
Hamiltonian residual is at least `1e-4` and the iteration count is at most
500. -/
def while_cond {n m : ℕ} (v : OuterVal n m) : Prop :=
  ¬(v.hu < 1e-4 ∨ v.iters > 500)

/-- Modelled from the spec: the open-loop rollout utility `noc.utils.rollout`
(not part of the analysed sources; spec §6: given dynamics, an open-loop
control sequence and an initial state, it produces the open-loop state
trajectory used once to seed the first nominal trajectory). -/
def rollout {n m : ℕ} (dyn : Vec n → Vec m → Vec n) :
    List (Vec m) → Vec n → List (Vec n)
  | [], x => [x]
  | u :: us, x => x :: rollout dyn us (dyn x u)

/-- Model of `ddp`: the Newton loop at one fixed barrier parameter, seeded
by the open-loop rollout of the initial controls, returning
`(opt_states, opt_controls, total_iterations)`. -/
def ddp {n m c : ℕ} (ocp : OCPm n m c) (O : DiffOracle n m)
    (controls : List (Vec m)) (initial_state : Vec n) (barrier_param : ℝ) :
    List (Vec n) × List (Vec m) × ℕ :=
  let states := rollout ocp.dynamics controls initial_state
  let r := iterWhile while_cond (while_body ocp O barrier_param) 502
    ⟨states, controls, 0, 1, 2, 1⟩
  (r.xs, r.us, r.iters)

/-- Continuation test of `interior_point_ddp` (`while_cond` there):
continue while the barrier parameter exceeds `1e-4`. -/
def ip_cond {m : ℕ} (v : List (Vec m) × ℝ × ℕ) : Prop := v.2.1 > 1e-4

/-- Continuation body of `interior_point_ddp` (`while_body` there): run the
Newton loop at the current barrier parameter warm-started from the carried
controls, divide the barrier parameter by 5, accumulate the iteration
count. -/
def ip_body {n m c : ℕ} (ocp : OCPm n m c) (O : DiffOracle n m)
    (initial_state : Vec n) (v : List (Vec m) × ℝ × ℕ) :
    List (Vec m) × ℝ × ℕ :=
  let dr := ddp ocp O v.1 initial_state v.2.1
  (dr.2.1, v.2.1 / 5, v.2.2 + dr.2.2)

/-- Model of `interior_point_ddp`: barrier continuation from `0.1`, dividing
the barrier parameter by 5 after each Newton-loop invocation and
accumulating the iteration counts, until the barrier parameter is at most
`1e-4`; returns the final controls and the cumulative count. -/
def interior_point_ddp {n m c : ℕ} (ocp : OCPm n m c) (O : DiffOracle n m)
    (controls : List (Vec m)) (initial_state : Vec n) :
    List (Vec m) × ℕ :=
  let r := iterWhile ip_cond (ip_body ocp O initial_state) 6
    (controls, 0.1, 0)
  (r.1, r.2.2)

end

/-! ### General lemmas about the iteration and scan combinators -/

theorem iterWhile_of_not_cond {α : Type*} {cond : α → Prop} {body : α → α}
    {s : α} (h : ¬ cond s) : ∀ f, iterWhile cond body f s = s
  | 0 => rfl
  | (f + 1) => by simp [iterWhile, h]

theorem iterWhile_stable {α : Type*} {cond : α → Prop} {body : α → α} :
    ∀ (f : ℕ) (s : α), ¬ cond (iterWhile cond body f s) →
      ∀ e, iterWhile cond body (f + e) s = iterWhile cond body f s
  | 0, s, h, e => by
    rw [Nat.zero_add]
    exact iterWhile_of_not_cond h e
  | (f + 1), s, h, e => by
    by_cases hc : cond s
    · have heq : f + 1 + e = (f + e) + 1 := by omega
      rw [heq]
      simp only [iterWhile, if_pos hc] at h ⊢
      exact iterWhile_stable f (body s) h e
    · rw [iterWhile_of_not_cond hc (f + 1 + e), iterWhile_of_not_cond hc (f + 1)]

theorem iterWhile_inv {α : Type*} {cond : α → Prop} {body : α → α}
    (P : α → Prop) (hstep : ∀ t, P t → cond t → P (body t)) :
    ∀ (f : ℕ) (s : α), P s → P (iterWhile cond body f s)
  | 0, s, hs => hs
  | (f + 1), s, hs => by
    by_cases hc : cond s
    · simpa only [iterWhile, if_pos hc] using
        iterWhile_inv P hstep f (body s) (hstep s hs hc)
    · simpa only [iterWhile, if_neg hc] using hs

theorem iterWhile_eq_start_or_body {α : Type*} {cond : α → Prop}
    {body : α → α} :
    ∀ (f : ℕ) (s : α), iterWhile cond body f s = s ∨
      ∃ t, iterWhile cond body f s = body t
  | 0, s => Or.inl rfl
  | (f + 1), s => by
    by_cases hc : cond s
    · simp only [iterWhile, if_pos hc]
      rcases iterWhile_eq_start_or_body f (body s) with h | ⟨t, ht⟩
      · exact Or.inr ⟨s, h⟩
      · exact Or.inr ⟨t, ht⟩
    · exact Or.inl (iterWhile_of_not_cond hc (f + 1))

theorem iterWhile_step_pos {α : Type*} {cond : α → Prop} {body : α → α}
    {s : α} (h : cond s) (f : ℕ) :
    iterWhile cond body (f + 1) s = iterWhile cond body f (body s) := by
  rw [iterWhile, if_pos h]

theorem scanr_snd_length {γ α β : Type*} (f : γ → α → γ × β) (c : γ) :
    ∀ ds : List α, ((scanr f c ds).2).length = ds.length
  | [] => rfl
  | _ :: as => by simp [scanr, scanr_snd_length f c as]

theorem scanr_snd_getD {γ α β : Type*} (f : γ → α → γ × β) (c : γ)
    (a₀ : α) (b₀ : β) :
    ∀ (ds : List α) (k : ℕ), k < ds.length →
      ((scanr f c ds).2).getD k b₀ =
        (f (scanr f c (ds.drop (k + 1))).1 (ds.getD k a₀)).2
  | [], k, hk => absurd hk (by simp)
  | d :: rest, 0, _ => by simp [scanr]
  | d :: rest, (k + 1), hk => by
    have hk' : k < rest.length := by simpa using hk
    simpa [scanr] using scanr_snd_getD f c a₀ b₀ rest k hk'

theorem scanr_mem {γ α β : Type*} (f : γ → α → γ × β) (c : γ) :
    ∀ (ds : List α) (o : β), o ∈ (scanr f c ds).2 →
      ∃ carry a, o = (f carry a).2
  | [], o, ho => absurd ho (by simp [scanr])
  | d :: rest, o, ho => by
    simp only [scanr, List.mem_cons] at ho
    rcases ho with ho | ho
    · exact ⟨(scanr f c rest).1, d, ho⟩
    · exact scanr_mem f c rest o ho

/-! ### Lemmas about clip, ediv and positive definiteness -/

theorem clip_mem {x lo hi : ℝ} (h : lo ≤ hi) :
    lo ≤ clip x lo hi ∧ clip x lo hi ≤ hi :=
  ⟨le_min (le_max_right x lo) h, min_le_right _ _⟩

theorem ediv_top_of_neg {b : ℝ} (hb : b < 0) : ediv ⊤ b = ⊥ := by
  rw [ediv, if_neg hb.ne]
  exact EReal.top_mul_coe_of_neg (inv_lt_zero.2 hb)

theorem ediv_zero_right (a : EReal) : ediv a 0 = 0 := if_pos rfl

theorem ediv_coe_of_ne {a b : ℝ} (hb : b ≠ 0) :
    ediv ((a : ℝ) : EReal) b = ((a * b⁻¹ : ℝ) : EReal) := by
  rw [ediv, if_neg hb, EReal.coe_mul]

theorem not_ediv_top_pos {b : ℝ} (hb : b ≤ 0) : ¬ (0 : EReal) < ediv ⊤ b := by
  rcases lt_or_eq_of_le hb with hb' | hb'
  · rw [ediv_top_of_neg hb']
    exact fun h => absurd h (by simp)
  · rw [hb', ediv_zero_right]
    exact lt_irrefl 0

theorem ediv_pos_cases {a : EReal} {b : ℝ} (hb : b ≤ 0)
    (ha : a = ⊤ ∨ ∃ r : ℝ, a = (r : EReal))
    (h : (0 : EReal) < ediv a b) :
    b < 0 ∧ ∃ r : ℝ, a = (r : EReal) ∧ r < 0 := by
  rcases lt_or_eq_of_le hb with hbneg | hb0
  · refine ⟨hbneg, ?_⟩
    rcases ha with rfl | ⟨r, rfl⟩
    · rw [ediv_top_of_neg hbneg] at h
      exact absurd h (by simp)
    · refine ⟨r, rfl, ?_⟩
      rw [ediv_coe_of_ne hbneg.ne, EReal.coe_pos] at h
      by_contra hr
      push_neg at hr
      have : r * b⁻¹ ≤ 0 :=
        mul_nonpos_of_nonneg_of_nonpos hr (inv_lt_zero.2 hbneg).le
      exact absurd h (not_lt.2 this)
  · rw [hb0, ediv_zero_right] at h
    exact absurd h (lt_irrefl 0)

theorem posDef_of_eigenvalues_pos {p : ℕ} {A : Mat p p} (hA : A.IsHermitian)
    (h : ∀ i, 0 < hA.eigenvalues i) : A.PosDef := by
  refine ⟨hA, fun x hx => ?_⟩
  have hU : (hA.eigenvectorUnitary : Mat p p) *
      star (hA.eigenvectorUnitary : Mat p p) = 1 :=
    (Matrix.mem_unitaryGroup_iff).mp hA.eigenvectorUnitary.2
  set U : Mat p p := (hA.eigenvectorUnitary : Mat p p) with hUdef
  set y : Vec p := star U *ᵥ x with hy
  have hyx : star x ᵥ* U = star y := by
    rw [hy, Matrix.star_mulVec, Matrix.star_eq_conjTranspose,
      Matrix.conjTranspose_conjTranspose]
  have hkey : Matrix.dotProduct (star x) (A *ᵥ x) =
      Matrix.dotProduct (star y)
        ((Matrix.diagonal (RCLike.ofReal ∘ hA.eigenvalues) : Mat p p) *ᵥ y) := by
    conv_lhs => rw [hA.spectral_theorem]
    rw [← Matrix.mulVec_mulVec, ← Matrix.mulVec_mulVec,
      Matrix.dotProduct_mulVec, hyx]
  have hy0 : y ≠ 0 := by
    intro h0
    apply hx
    have : U *ᵥ (star U *ᵥ x) = U *ᵥ (0 : Vec p) := by rw [← hy, h0]
    rwa [Matrix.mulVec_mulVec, hU, Matrix.one_mulVec, Matrix.mulVec_zero]
      at this
  rw [hkey]
  have hdiag : ∀ i, ((Matrix.diagonal (RCLike.ofReal ∘ hA.eigenvalues) :
      Mat p p) *ᵥ y) i = hA.eigenvalues i * y i := by
    intro i
    rw [Matrix.mulVec_diagonal]
    simp [RCLike.ofReal]
  unfold Matrix.dotProduct
  have hterm : ∀ i, star y i *
      ((Matrix.diagonal (RCLike.ofReal ∘ hA.eigenvalues) : Mat p p) *ᵥ y) i =
      hA.eigenvalues i * (y i) ^ 2 := by
    intro i
    rw [hdiag i, Pi.star_apply, star_trivial]
    ring
  obtain ⟨j, hj⟩ := Function.ne_iff.mp hy0
  have hj' : y j ≠ 0 := by simpa using hj
  refine Finset.sum_pos' (fun i _ => ?_) ⟨j, Finset.mem_univ j, ?_⟩
  · rw [hterm i]
    exact mul_nonneg (h i).le (sq_nonneg _)
  · rw [hterm j]
    exact mul_pos (h j)
      (lt_of_le_of_ne (sq_nonneg _) (Ne.symm (pow_ne_zero 2 hj')))

theorem list_sum_nonpos {l : List ℝ} (h : ∀ x ∈ l, x ≤ 0) : l.sum ≤ 0 := by
  induction l with
  | nil => simp
  | cons a as ih =>
    rw [List.sum_cons]
    have ha := h a (List.mem_cons_self a as)
    have has := ih fun x hx => h x (List.mem_cons_of_mem a hx)
    linarith

/-! ### Structural lemmas about the backward pass -/

noncomputable section

/-- Value-function carry as stated by the specification: recursing from
stage `N-1` down to `0`, initialized at the terminal stage from the
final-cost gradient/Hessian, with the carry updates
`Vx ← Qx − Qu Quu⁻¹ Qxuᵗ` and `Vxx ← Qxx − Qxu Quu⁻¹ Qxuᵗ` built from the
stated action-value expansion.  `bwdVF reg VT ds` is the carry entering the
first stage of `ds`; in particular `bwdVF reg VT (ds.drop (k+1))` is the
carry consumed at stage `k`. -/
def bwdVF {n m : ℕ} (reg : ℝ) (VT : Vec n × Mat n n) :
    List (Deriv n m) → Vec n × Mat n n
  | [] => VT
  | d :: rest =>
    let Vx := (bwdVF reg VT rest).1
    let Vxx := (bwdVF reg VT rest).2
    let Qx := d.cx + d.fxᵀ *ᵥ Vx
    let Qu := d.cu + d.fuᵀ *ᵥ Vx
    let Qxx := d.cxx + d.fxᵀ * Vxx * d.fx + tdot Vx d.fxx
    let Qxu := d.cxu + d.fxᵀ * Vxx * d.fu + tdot Vx d.fxu
    let Quu := (d.cuu + d.fuᵀ * Vxx * d.fu + tdot Vx d.fuu) +
      reg • (1 : Mat m m)
    (Qx - Qu ᵥ* (Quu⁻¹ * Qxuᵀ), Qxx - Qxu * (Quu⁻¹ * Qxuᵀ))

end

theorem scanr_fst_eq_bwdVF {n m : ℕ} (reg : ℝ) (VT : Vec n × Mat n n) :
    ∀ ds : List (Deriv n m), (scanr (bwdStep reg) VT ds).1 = bwdVF reg VT ds
  | [] => rfl
  | d :: rest => by
    simp only [scanr, bwdVF, bwdStep, scanr_fst_eq_bwdVF reg VT rest]

theorem bwdStep_posdef_iff {n m : ℕ} (reg : ℝ) (carry : Vec n × Mat n n)
    (d : Deriv n m) :
    ((bwdStep reg carry d).2).posdef = ((bwdStep reg carry d).2).QuuReg.PosDef :=
  rfl

theorem bwdStep_dV_nonpos {n m : ℕ} (reg : ℝ) (carry : Vec n × Mat n n)
    (d : Deriv n m) (hpd : ((bwdStep reg carry d).2).posdef) :
    ((bwdStep reg carry d).2).dV ≤ 0 := by
  simp only [bwdStep] at hpd ⊢
  set Qu : Vec m := d.cu + d.fuᵀ *ᵥ carry.1 with hQu
  set Quu : Mat m m := (d.cuu + d.fuᵀ * carry.2 * d.fu + tdot carry.1 d.fuu) +
    reg • (1 : Mat m m) with hQuu
  have hinv : (Quu⁻¹).PosSemidef := hpd.inv.posSemidef
  have hq := hinv.2 Qu
  have hstar : star Qu = Qu := funext fun i => star_trivial (Qu i)
  rw [hstar] at hq
  linarith

theorem bwd_pred_nonpos {n m : ℕ} (VxT : Vec n) (VxxT : Mat n n)
    (ds : List (Deriv n m)) (rp : ℝ)
    (hfeas : (bwd_pass VxT VxxT ds rp).2.2) :
    (bwd_pass VxT VxxT ds rp).2.1 ≤ 0 := by
  simp only [bwd_pass] at hfeas ⊢
  refine list_sum_nonpos ?_
  intro x hx
  rw [List.mem_map] at hx
  obtain ⟨o, ho, rfl⟩ := hx
  obtain ⟨carry, a, rfl⟩ := scanr_mem _ _ _ o ho
  exact bwdStep_dV_nonpos _ _ _ (hfeas _ ho)

theorem list_map_sum_eq {α : Type*} (g : α → ℝ) (x₀ : α) :
    ∀ l : List α, (l.map g).sum = ∑ j ∈ Finset.range l.length, g (l.getD j x₀)
  | [] => by simp
  | a :: l => by
    rw [List.map_cons, List.sum_cons, list_map_sum_eq g x₀ l,
      List.length_cons, Finset.sum_range_succ']
    simp [add_comm]

theorem mem_all_iff_getD {α : Type*} (P : α → Prop) (x₀ : α) (l : List α) :
    (∀ o ∈ l, P o) ↔ ∀ j (hj : j < l.length), P (l.getD j x₀) := by
  constructor
  · intro h j hj
    rw [List.getD_eq_getElem l x₀ hj]
    exact h _ (List.getElem_mem hj)
  · intro h o ho
    obtain ⟨j, hj, rfl⟩ := List.mem_iff_getElem.mp ho
    rw [← List.getD_eq_getElem l x₀ hj]
    exact h j hj

theorem bwd_pass_getD {n m : ℕ} (VxT : Vec n) (VxxT : Mat n n)
    (ds : List (Deriv n m)) (rp : ℝ) (k : ℕ) (hk : k < ds.length)
    (d₀ : Deriv n m) :
    (bwd_pass VxT VxxT ds rp).1.getD k (bwdOutDefault n m) =
      (bwdStep (rp * cuNorm ds)
        (bwdVF (rp * cuNorm ds) (VxT, VxxT) (ds.drop (k + 1)))
        (ds.getD k d₀)).2 := by
  simp only [bwd_pass]
  rw [scanr_snd_getD _ _ d₀ _ ds k hk, scanr_fst_eq_bwdVF]

theorem mat1_isHermitian (A : Mat 1 1) : A.IsHermitian := by
  ext i j
  fin_cases i
  fin_cases j
  simp [Matrix.conjTranspose_apply]

/-! ### Claim C1 -/

/-- C1: for every derivative bundle, final-cost gradient/Hessian pair and
regularization scalar, the backward pass recurses from stage `N-1` down to
`0` with the value-function carry initialized from the final cost (the
carry consumed at stage `k` is `bwdVF … (ds.drop (k+1))`, the
specification's downward recursion started at `(VxT, VxxT)`), and at each
stage computes `k = −Quu⁻¹Qu`, `K = −Quu⁻¹Qxuᵗ`,
`dV = −½ Quᵗ Quu⁻¹ Qu` and the carry updates performed by `bwdVF`, with
the Q-blocks following the stated action-value expansion; the returned
predicted reduction is the sum of the per-stage `dV`, and the returned
feasibility flag holds iff the regularized `Quu` has all eigenvalues
strictly positive at every stage (stated via the eigenvalues of the
Hermitian matrices, with hermiticity a hypothesis since eigenvalues of a
non-symmetric matrix are not meaningful — `jnp.linalg.eigh` likewise
presupposes a symmetric input). -/
theorem c1_backward_pass_bellman {n m : ℕ} (VxT : Vec n) (VxxT : Mat n n)
    (ds : List (Deriv n m)) (rp : ℝ) (d₀ : Deriv n m)
    (hH : ∀ j (hj : j < ds.length),
      (((bwd_pass VxT VxxT ds rp).1.getD j (bwdOutDefault n m)).QuuReg).IsHermitian) :
    (∀ k, k < ds.length →
      (bwd_pass VxT VxxT ds rp).1.getD k (bwdOutDefault n m) =
        (let reg := rp * cuNorm ds
         let V := bwdVF reg (VxT, VxxT) (ds.drop (k + 1))
         let d := ds.getD k d₀
         let Qx := d.cx + d.fxᵀ *ᵥ V.1
         let Qu := d.cu + d.fuᵀ *ᵥ V.1
         let Qxu := d.cxu + d.fxᵀ * V.2 * d.fu + tdot V.1 d.fxu
         let Quu := (d.cuu + d.fuᵀ * V.2 * d.fu + tdot V.1 d.fuu) +
           reg • (1 : Mat m m)
         ⟨-(Quu⁻¹ *ᵥ Qu), -(Quu⁻¹ * Qxuᵀ),
           -(1 / 2) * (Qu ⬝ᵥ (Quu⁻¹ *ᵥ Qu)), Quu.PosDef, Qu, Quu⟩)) ∧
    bwdVF (rp * cuNorm ds) (VxT, VxxT) ([] : List (Deriv n m)) = (VxT, VxxT) ∧
    (bwd_pass VxT VxxT ds rp).2.1 =
      ∑ j ∈ Finset.range ds.length,
        ((bwd_pass VxT VxxT ds rp).1.getD j (bwdOutDefault n m)).dV ∧
    ((bwd_pass VxT VxxT ds rp).2.2 ↔
      ∀ j (hj : j < ds.length), ∀ i, 0 < (hH j hj).eigenvalues i) := by
  have hlen : ((bwd_pass VxT VxxT ds rp).1).length = ds.length := by
    simp only [bwd_pass]
    exact scanr_snd_length _ _ ds
  have hacc : ∀ k, k < ds.length →
      (bwd_pass VxT VxxT ds rp).1.getD k (bwdOutDefault n m) =
        (bwdStep (rp * cuNorm ds)
          (bwdVF (rp * cuNorm ds) (VxT, VxxT) (ds.drop (k + 1)))
          (ds.getD k d₀)).2 := fun k hk => bwd_pass_getD VxT VxxT ds rp k hk d₀
  refine ⟨fun k hk => ?_, rfl, ?_, ?_⟩
  · rw [hacc k hk]
    rfl
  · simp only [bwd_pass]
    rw [list_map_sum_eq BwdOut.dV (bwdOutDefault n m), scanr_snd_length]
  · constructor
    · intro hfeas j hj i
      have hj' : j < ((bwd_pass VxT VxxT ds rp).1).length := by
        rw [hlen]; exact hj
      have hpd : ((bwd_pass VxT VxxT ds rp).1.getD j (bwdOutDefault n m)).posdef := by
        have hmem := (mem_all_iff_getD (fun o => o.posdef)
          (bwdOutDefault n m) ((bwd_pass VxT VxxT ds rp).1)).mp
        exact hmem hfeas j hj'
      have hpd2 : (((bwd_pass VxT VxxT ds rp).1.getD j
          (bwdOutDefault n m)).QuuReg).PosDef := by
        rw [hacc j hj] at hpd ⊢
        exact (bwdStep_posdef_iff _ _ _) ▸ hpd
      exact hpd2.eigenvalues_pos i
    · intro h
      show ∀ o ∈ (bwd_pass VxT VxxT ds rp).1, o.posdef
      refine (mem_all_iff_getD (fun o => o.posdef) (bwdOutDefault n m) _).mpr ?_
      intro j hj'
      have hj : j < ds.length := by rw [← hlen]; exact hj'
      have hpdQ : (((bwd_pass VxT VxxT ds rp).1.getD j
          (bwdOutDefault n m)).QuuReg).PosDef :=
        posDef_of_eigenvalues_pos (hH j hj) (h j hj)
      rw [hacc j hj] at hpdQ ⊢
      exact (bwdStep_posdef_iff _ _ _).symm ▸ hpdQ

/-- Zero derivative bundle in one state and one control dimension, used to
instantiate universally quantified theorems at a concrete input. -/
noncomputable def zeroDeriv1 : Deriv 1 1 :=
  ⟨0, 0, 0, 0, 0, 0, 0, fun _ => 0, fun _ => 0, fun _ => 0⟩

theorem c1_herm : ∀ j (_ : j < ([zeroDeriv1].length)),
    (((bwd_pass (0 : Vec 1) (0 : Mat 1 1) [zeroDeriv1] 1).1.getD j
      (bwdOutDefault 1 1)).QuuReg).IsHermitian :=
  fun _ _ => mat1_isHermitian _

/-- Witness for C1: the theorem instantiated at a one-stage bundle, its
hermiticity hypothesis discharged concretely. -/
theorem c1_backward_pass_bellman_witness :
    (0 : ℕ) < [zeroDeriv1].length ∧
    ((bwd_pass (0 : Vec 1) (0 : Mat 1 1) [zeroDeriv1] 1).2.2 ↔
      ∀ j (hj : j < [zeroDeriv1].length), ∀ i,
        0 < (c1_herm j hj).eigenvalues i) :=
  ⟨by norm_num,
    (c1_backward_pass_bellman (0 : Vec 1) (0 : Mat 1 1) [zeroDeriv1] 1
      zeroDeriv1 c1_herm).2.2.2⟩

/-! ### Claim C8 -/

/-- C8: the matrix added to `Quu` before the positive-definiteness check
and the linear solves is `reg_param · ‖cu‖` times the identity, where
`‖cu‖ = cuNorm ds` is the Frobenius norm of the stacked control gradients
of the cost; the same scalar multiple of the identity is added at every
stage of the recursion (the scalar does not depend on the stage `k`). -/
theorem c8_regularization_identity {n m : ℕ} (VxT : Vec n) (VxxT : Mat n n)
    (ds : List (Deriv n m)) (rp : ℝ) (d₀ : Deriv n m) (k : ℕ)
    (hk : k < ds.length) :
    ((bwd_pass VxT VxxT ds rp).1.getD k (bwdOutDefault n m)).QuuReg =
      (let V := bwdVF (rp * cuNorm ds) (VxT, VxxT) (ds.drop (k + 1))
       let d := ds.getD k d₀
       (d.cuu + d.fuᵀ * V.2 * d.fu + tdot V.1 d.fuu)) +
      (rp * cuNorm ds) • (1 : Mat m m) := by
  rw [bwd_pass_getD VxT VxxT ds rp k hk d₀]
  rfl

/-- Witness for C8 at a concrete one-stage input. -/
theorem c8_regularization_identity_witness :
    (0 : ℕ) < [zeroDeriv1].length ∧
    ((bwd_pass (0 : Vec 1) (0 : Mat 1 1) [zeroDeriv1] 1).1.getD 0
        (bwdOutDefault 1 1)).QuuReg =
      (let V := bwdVF (1 * cuNorm [zeroDeriv1]) ((0 : Vec 1), (0 : Mat 1 1))
        ([zeroDeriv1].drop 1)
       let d := [zeroDeriv1].getD 0 zeroDeriv1
       (d.cuu + d.fuᵀ * V.2 * d.fu + tdot V.1 d.fuu)) +
      (1 * cuNorm [zeroDeriv1]) • (1 : Mat 1 1) :=
  ⟨by norm_num,
    c8_regularization_identity (0 : Vec 1) (0 : Mat 1 1) [zeroDeriv1] 1
      zeroDeriv1 0 (by norm_num)⟩

/-! ### Claim C7 -/

theorem rolloutScan_spec {n m : ℕ} (dyn : Vec n → Vec m → Vec n) :
    ∀ (Ks : List (Mat m n)) (ffs : List (Vec m)) (xsl : List (Vec n))
      (usl : List (Vec m)) (x0 : Vec n),
      ffs.length = Ks.length → xsl.length = Ks.length →
      usl.length = Ks.length →
      (rolloutScan dyn x0 Ks ffs xsl usl).1.length = Ks.length + 1 ∧
      (rolloutScan dyn x0 Ks ffs xsl usl).2.length = Ks.length ∧
      (rolloutScan dyn x0 Ks ffs xsl usl).1.getD 0 0 = x0 ∧
      ∀ k, k < Ks.length →
        ((rolloutScan dyn x0 Ks ffs xsl usl).2.getD k 0 =
          usl.getD k 0 + ffs.getD k 0 + (Ks.getD k 0) *ᵥ
            ((rolloutScan dyn x0 Ks ffs xsl usl).1.getD k 0 - xsl.getD k 0)) ∧
        (rolloutScan dyn x0 Ks ffs xsl usl).1.getD (k + 1) 0 =
          dyn ((rolloutScan dyn x0 Ks ffs xsl usl).1.getD k 0)
            ((rolloutScan dyn x0 Ks ffs xsl usl).2.getD k 0)
  | [], ffs, xsl, usl, x0, hf, hx, hu => by
    refine ⟨by simp [rolloutScan], by simp [rolloutScan],
      by simp [rolloutScan], fun k hk => absurd hk (by simp)⟩
  | K :: Ks, ffs, xsl, usl, x0, hf, hx, hu => by
    obtain ⟨f, ffs', rfl⟩ : ∃ f ffs', ffs = f :: ffs' := by
      cases ffs with
      | nil => exact absurd hf (by simp)
      | cons a l => exact ⟨a, l, rfl⟩
    obtain ⟨x, xsl', rfl⟩ : ∃ x xsl', xsl = x :: xsl' := by
      cases xsl with
      | nil => exact absurd hx (by simp)
      | cons a l => exact ⟨a, l, rfl⟩
    obtain ⟨u, usl', rfl⟩ : ∃ u usl', usl = u :: usl' := by
      cases usl with
      | nil => exact absurd hu (by simp)
      | cons a l => exact ⟨a, l, rfl⟩
    have hf' : ffs'.length = Ks.length := by simpa using hf
    have hx' : xsl'.length = Ks.length := by simpa using hx
    have hu' : usl'.length = Ks.length := by simpa using hu
    set uh : Vec m := u + f + K *ᵥ (x0 - x) with huh
    have ih := rolloutScan_spec dyn Ks ffs' xsl' usl' (dyn x0 uh) hf' hx' hu'
    have hunfold : rolloutScan dyn x0 (K :: Ks) (f :: ffs') (x :: xsl')
        (u :: usl') =
        (x0 :: (rolloutScan dyn (dyn x0 uh) Ks ffs' xsl' usl').1,
         uh :: (rolloutScan dyn (dyn x0 uh) Ks ffs' xsl' usl').2) := rfl
    rw [hunfold]
    refine ⟨by simpa using ih.1, by simpa using ih.2.1, rfl, fun k hk => ?_⟩
    cases k with
    | zero =>
      refine ⟨rfl, ?_⟩
      show (rolloutScan dyn (dyn x0 uh) Ks ffs' xsl' usl').1.getD 0 0 =
        dyn x0 uh
      exact ih.2.2.1
    | succ k =>
      have hk' : k < Ks.length := by simpa using hk
      have hmain := ih.2.2.2 k hk'
      exact ⟨hmain.1, hmain.2⟩

/-- C7: for every nominal trajectory and gain sequence of matching shapes,
the forward rollout produces a candidate trajectory of the same shape,
with `state_hat[0]` the nominal initial state,
`control_hat[k] = control[k] + k[k] + K[k]·(state_hat[k] − state[k])` and
`state_hat[k+1] = dynamics (state_hat[k], control_hat[k])` for
`k = 0..N-1`, in strict forward stage order (each state is produced from
the previous simulated state). -/
theorem c7_nonlin_rollout_spec {n m : ℕ} (dyn : Vec n → Vec m → Vec n)
    (Ks : List (Mat m n)) (ffs : List (Vec m)) (xs : List (Vec n))
    (us : List (Vec m)) (hK : Ks.length = us.length)
    (hf : ffs.length = us.length) (hx : xs.length = us.length + 1) :
    (nonlin_rollout dyn Ks ffs xs us).1.length = xs.length ∧
    (nonlin_rollout dyn Ks ffs xs us).2.length = us.length ∧
    (nonlin_rollout dyn Ks ffs xs us).1.getD 0 0 = xs.getD 0 0 ∧
    ∀ k, k < us.length →
      ((nonlin_rollout dyn Ks ffs xs us).2.getD k 0 =
        us.getD k 0 + ffs.getD k 0 + (Ks.getD k 0) *ᵥ
          ((nonlin_rollout dyn Ks ffs xs us).1.getD k 0 - xs.getD k 0)) ∧
      (nonlin_rollout dyn Ks ffs xs us).1.getD (k + 1) 0 =
        dyn ((nonlin_rollout dyn Ks ffs xs us).1.getD k 0)
          ((nonlin_rollout dyn Ks ffs xs us).2.getD k 0) := by
  obtain ⟨y, ys, rfl⟩ : ∃ y ys, xs = y :: ys := by
    cases xs with
    | nil => exact absurd hx (by simp)
    | cons a l => exact ⟨a, l, rfl⟩
  have hlen' : ((y :: ys).dropLast).length = Ks.length := by
    rw [List.length_dropLast, hK]
    simpa using hx
  have hspec := rolloutScan_spec dyn Ks ffs ((y :: ys).dropLast) us y
    (hf.trans hK.symm) hlen' hK.symm
  have hdrop : ∀ k, k < us.length →
      ((y :: ys).dropLast).getD k 0 = (y :: ys).getD k 0 := by
    intro k hk
    have hk1 : k < ((y :: ys).dropLast).length := by
      rw [List.length_dropLast]
      simpa using Nat.lt_of_lt_of_le hk (by simpa using hx.ge)
    have hk2 : k < (y :: ys).length := Nat.lt_of_lt_of_le hk1
      (by rw [List.length_dropLast]; omega)
    rw [List.getD_eq_getElem _ _ hk1, List.getD_eq_getElem _ _ hk2]
    exact List.getElem_dropLast _ _ _
  have hhead : ((y :: ys).headD 0) = (y :: ys).getD 0 0 := rfl
  have hroll : nonlin_rollout dyn Ks ffs (y :: ys) us =
      rolloutScan dyn y Ks ffs ((y :: ys).dropLast) us := by
    simp [nonlin_rollout]
  rw [hroll]
  refine ⟨?_, by rw [hspec.2.1, hK], by rw [hspec.2.2.1]; rfl, fun k hk => ?_⟩
  · rw [hspec.1, hK]
    exact hx.symm
  · have hkK : k < Ks.length := by rw [hK]; exact hk
    have hm := hspec.2.2.2 k hkK
    refine ⟨?_, hm.2⟩
    rw [hm.1, hdrop k hk]

/-- Witness for C7 at a concrete one-stage rollout. -/
theorem c7_nonlin_rollout_spec_witness :
    ([(0 : Mat 1 1)].length = [(0 : Vec 1)].length ∧
     [(0 : Vec 1)].length = [(0 : Vec 1)].length ∧
     ([(0 : Vec 1), 0].length = [(0 : Vec 1)].length + 1)) ∧
    (nonlin_rollout (fun _ _ => (0 : Vec 1)) [(0 : Mat 1 1)] [(0 : Vec 1)]
      [(0 : Vec 1), 0] [(0 : Vec 1)]).1.length =
      ([(0 : Vec 1), 0] : List (Vec 1)).length :=
  ⟨⟨by norm_num, by norm_num, by norm_num⟩,
    (c7_nonlin_rollout_spec (fun _ _ => (0 : Vec 1)) [(0 : Mat 1 1)]
      [(0 : Vec 1)] [(0 : Vec 1), 0] [(0 : Vec 1)]
      (by norm_num) (by norm_num) (by norm_num)).1⟩

/-! ### Claim C10 -/

/-- C10: the feasibility predicate gating candidate acceptance evaluates
the constraints only at the stage pairs `(state[k], control[k])` for
`k = 0..N-1` and never at the terminal state; consequently its result, and
whether the candidate is assigned cost `+∞`, are unchanged by any
modification of the terminal state alone. -/
theorem c10_feasibility_ignores_terminal {n m c : ℕ} (ocp : OCPm n m c)
    (bp : ℝ) (xs : List (Vec n)) (us : List (Vec m)) (y : Vec n)
    (hx : xs.length = us.length + 1) :
    (check_feasibility ocp (xs.dropLast ++ [y]) us ↔
      check_feasibility ocp xs us) ∧
    (candCost ocp bp (xs.dropLast ++ [y]) us = ⊤ ↔
      candCost ocp bp xs us = ⊤) ∧
    (check_feasibility ocp xs us ↔
      ∀ k, k < us.length → ∀ i,
        ocp.constraints (xs.getD k 0) (us.getD k 0) i ≤ 0) := by
  have hdl : (xs.dropLast ++ [y]).dropLast = xs.dropLast := by
    simp
  have hfeas : check_feasibility ocp (xs.dropLast ++ [y]) us ↔
      check_feasibility ocp xs us := by
    unfold check_feasibility
    rw [hdl]
  have hcost : ∀ zs : List (Vec n), (candCost ocp bp zs us = ⊤ ↔
      ¬ check_feasibility ocp zs us) := by
    intro zs
    unfold candCost
    by_cases hz : check_feasibility ocp zs us
    · simp only [if_pos hz]
      exact ⟨fun h => absurd h (EReal.coe_ne_top _), fun h => absurd hz h⟩
    · simp only [if_neg hz]
      exact ⟨fun _ => hz, fun _ => trivial⟩
  refine ⟨hfeas, ?_, ?_⟩
  · rw [hcost, hcost]
    exact not_congr hfeas
  · unfold check_feasibility
    rw [mem_all_iff_getD (fun p : Vec c => ∀ i, p i ≤ 0) (0 : Vec c)
      (List.zipWith (fun x u => ocp.constraints x u) xs.dropLast us)]
    have hlen : (List.zipWith (fun x u => ocp.constraints x u)
        xs.dropLast us).length = us.length := by
      rw [List.length_zipWith, List.length_dropLast, hx]
      simp
    constructor
    · intro h k hk i
      have hk' : k < (List.zipWith (fun x u => ocp.constraints x u)
          xs.dropLast us).length := by rw [hlen]; exact hk
      have := h k hk' i
      rw [List.getD_eq_getElem _ _ hk', List.getElem_zipWith] at this
      have hkd : k < xs.dropLast.length := by
        rw [List.length_dropLast, hx]; simpa using hk
      have hkx : k < xs.length := by omega
      rw [List.getElem_dropLast] at this
      rw [List.getD_eq_getElem xs _ hkx,
        List.getD_eq_getElem us _ hk]
      exact this
    · intro h k hk' i
      have hk : k < us.length := by rw [← hlen]; exact hk'
      have := h k hk i
      rw [List.getD_eq_getElem _ _ hk', List.getElem_zipWith]
      have hkd : k < xs.dropLast.length := by
        rw [List.length_dropLast, hx]; simpa using hk
      have hkx : k < xs.length := by omega
      rw [List.getElem_dropLast]
      rw [List.getD_eq_getElem xs _ hkx, List.getD_eq_getElem us _ hk] at this
      exact this

/-- Witness for C10 at a concrete trajectory. -/
theorem c10_feasibility_ignores_terminal_witness :
    (([(0 : Vec 1), 0] : List (Vec 1)).length = [(0 : Vec 1)].length + 1) ∧
    (check_feasibility
        (OCPm.mk (fun _ _ => (0 : Vec 1)) (fun _ _ => (0 : Vec 1))
          (fun _ _ _ => 0) (fun _ => 0) (fun _ _ _ => 0))
        (([(0 : Vec 1), 0] : List (Vec 1)).dropLast ++ [fun _ => 5])
        [(0 : Vec 1)] ↔
      check_feasibility
        (OCPm.mk (fun _ _ => (0 : Vec 1)) (fun _ _ => (0 : Vec 1))
          (fun _ _ _ => 0) (fun _ => 0) (fun _ _ _ => 0))
        [(0 : Vec 1), 0] [(0 : Vec 1)]) :=
  ⟨by norm_num,
    (c10_feasibility_ignores_terminal
      (OCPm.mk (fun _ _ => (0 : Vec 1)) (fun _ _ => (0 : Vec 1))
        (fun _ _ _ => 0) (fun _ => 0) (fun _ _ _ => 0))
      1 [(0 : Vec 1), 0] [(0 : Vec 1)] (fun _ => 5) (by norm_num)).1⟩

/-! ### Claim C9 -/

/-- C9: after every inner-loop update — both the accept-branch cubic decay
and the reject-branch growth — the regularization scalar carried by the
globalization and Newton loops lies within `[1e-16, 1e16]` (the update is
clamped to that interval), for all inputs. -/
theorem c9_regularization_bounded {n m c : ℕ} (ocp : OCPm n m c)
    (O : DiffOracle n m) (bp : ℝ) (xs : List (Vec n)) (us : List (Vec m))
    (cost : ℝ) (ds : List (Deriv n m)) (reg_inc : ℝ) (v : InnerVal n m) :
    (1e-16 : ℝ) ≤ (while_inner_loop ocp O bp xs us cost ds reg_inc v).rp ∧
    (while_inner_loop ocp O bp xs us cost ds reg_inc v).rp ≤ (1e16 : ℝ) := by
  simp only [while_inner_loop]
  exact clip_mem (by norm_num)

/-! ### Claims C4 and C5 -/

theorem innerAccept_not_of_infeasible {n m c : ℕ} (ocp : OCPm n m c)
    (O : DiffOracle n m) (bp : ℝ) (xs : List (Vec n)) (us : List (Vec m))
    (cost : ℝ) (ds : List (Deriv n m)) (rp : ℝ)
    (hinf : ¬ check_feasibility ocp (innerCandidate ocp O xs us ds rp).1
      (innerCandidate ocp O xs us ds rp).2) :
    ¬ innerAccept ocp O bp xs us cost ds rp := by
  rintro ⟨hratio, hfb⟩
  have hpred : (innerBwd O xs ds rp).2.1 ≤ 0 := bwd_pred_nonpos _ _ _ _ hfb
  have hcc : candCost ocp bp (innerCandidate ocp O xs us ds rp).1
      (innerCandidate ocp O xs us ds rp).2 = ⊤ := if_neg hinf
  rw [innerRatio, hcc, EReal.top_sub_coe] at hratio
  exact not_ediv_top_pos hpred hratio

/-- C4: in every inner-loop iteration, a candidate trajectory violating any
constraint at any stage is assigned cost `+∞`, and such a candidate is
never accepted by the acceptance rule, regardless of the sign of the
predicted reduction (if the backward pass was not positive definite
throughout, the acceptance rule fails outright; if it was, the predicted
reduction is necessarily nonpositive and the infinite gain ratio test
fails). -/
theorem c4_infeasible_never_accepted {n m c : ℕ} (ocp : OCPm n m c)
    (O : DiffOracle n m) (bp : ℝ) (xs : List (Vec n)) (us : List (Vec m))
    (cost : ℝ) (ds : List (Deriv n m)) (reg_inc : ℝ) (v : InnerVal n m)
    (hinf : ¬ check_feasibility ocp (innerCandidate ocp O xs us ds v.rp).1
      (innerCandidate ocp O xs us ds v.rp).2) :
    candCost ocp bp (innerCandidate ocp O xs us ds v.rp).1
      (innerCandidate ocp O xs us ds v.rp).2 = ⊤ ∧
    ¬ (while_inner_loop ocp O bp xs us cost ds reg_inc v).succ :=
  ⟨if_neg hinf, innerAccept_not_of_infeasible ocp O bp xs us cost ds v.rp hinf⟩

/-- C5: whenever an inner-loop candidate is accepted (gain ratio positive
and backward pass positive definite throughout), the candidate's total
cost at the current barrier parameter is strictly less than the nominal
trajectory's total cost; hence the cost strictly decreases at every
accepted inner-loop iteration. -/
theorem c5_accepted_strict_descent {n m c : ℕ} (ocp : OCPm n m c)
    (O : DiffOracle n m) (bp : ℝ) (xs : List (Vec n)) (us : List (Vec m))
    (ds : List (Deriv n m)) (reg_inc : ℝ) (v : InnerVal n m)
    (hacc : (while_inner_loop ocp O bp xs us (ocp.total_cost xs us bp) ds
      reg_inc v).succ) :
    ocp.total_cost (innerCandidate ocp O xs us ds v.rp).1
        (innerCandidate ocp O xs us ds v.rp).2 bp <
      ocp.total_cost xs us bp := by
  obtain ⟨hratio, hfb⟩ := hacc
  have hpred : (innerBwd O xs ds v.rp).2.1 ≤ 0 := bwd_pred_nonpos _ _ _ _ hfb
  set tx := (innerCandidate ocp O xs us ds v.rp).1 with htx
  set tu := (innerCandidate ocp O xs us ds v.rp).2 with htu
  set c0 := ocp.total_cost xs us bp with hc0
  have hform : candCost ocp bp tx tu - ((c0 : ℝ) : EReal) = ⊤ ∨
      ∃ r : ℝ, candCost ocp bp tx tu - ((c0 : ℝ) : EReal) = ((r : ℝ) : EReal) := by
    by_cases hfe : check_feasibility ocp tx tu
    · right
      refine ⟨ocp.total_cost tx tu bp - c0, ?_⟩
      rw [candCost, if_pos hfe, ← EReal.coe_sub]
    · left
      rw [candCost, if_neg hfe, EReal.top_sub_coe]
  have hcases := ediv_pos_cases hpred hform hratio
  obtain ⟨hpredneg, r, hr, hrneg⟩ := hcases
  by_cases hfe : check_feasibility ocp tx tu
  · rw [candCost, if_pos hfe, ← EReal.coe_sub] at hr
    have : ocp.total_cost tx tu bp - c0 = r := by
      exact_mod_cast hr
    linarith
  · rw [candCost, if_neg hfe, EReal.top_sub_coe] at hr
    exact absurd hr.symm (EReal.coe_ne_top r)

/-! ### One-dimensional matrix computation helpers -/

theorem mat1_smul_one_inv (a : ℝ) :
    (a • (1 : Mat 1 1))⁻¹ = a⁻¹ • (1 : Mat 1 1) := by
  rw [Matrix.inv_def, Matrix.adjugate_fin_one, Matrix.det_fin_one]
  have h1 : (a • (1 : Mat 1 1)) 0 0 = a := by simp
  rw [h1, Ring.inverse_eq_inv]

theorem mat1_eq_diagonal (A : Mat 1 1) :
    A = Matrix.diagonal (fun _ => A 0 0) := by
  ext i j
  fin_cases i
  fin_cases j
  simp

theorem mat1_posdef_iff (A : Mat 1 1) : A.PosDef ↔ 0 < A 0 0 := by
  rw [mat1_eq_diagonal A, Matrix.posDef_diagonal_iff]
  constructor
  · intro h
    simpa using h 0
  · intro h i
    simpa using h

theorem mat1_smul_one_mulVec (a : ℝ) (v : Vec 1) :
    (a • (1 : Mat 1 1)) *ᵥ v = fun i => a * v i := by
  funext i
  rw [Matrix.smul_mulVec_assoc, Matrix.one_mulVec]
  simp

theorem vec1_dot (v w : Vec 1) : v ⬝ᵥ w = v 0 * w 0 := by
  simp [Matrix.dotProduct]

/-! ### Concrete instance A: feasible seed, all candidates infeasible -/

noncomputable section

/-- Constant-zero dynamics of the degenerate instance A. -/
def dynA : Vec 1 → Vec 1 → Vec 1 := fun _ _ => 0

/-- Constraint of instance A: `g(x, u) = −u·(u + 1e20)`; satisfied at
`u = 0`, violated on the whole interval `(−1e20, 0)`. -/
def consA : Vec 1 → Vec 1 → Vec 1 :=
  fun _ u => fun _ => -(u 0) * (u 0 + 1e20)

/-- Degenerate optimal control problem A. -/
def exA : OCPm 1 1 1 :=
  ⟨dynA, consA, fun _ u _ => u 0, fun _ => 0,
    fun _ us _ => (us.map (fun u => u 0)).sum⟩

/-- Derivative bundle of instance A at any nominal point (the stage cost is
linear in the control, the dynamics are constant). -/
def dA : Deriv 1 1 :=
  ⟨0, fun _ => 1, 0, 0, 0, 0, 0, fun _ => 0, fun _ => 0, fun _ => 0⟩

/-- Differentiation collaborator for instance A. -/
def oracleA : DiffOracle 1 1 := ⟨fun _ _ _ => dA, fun _ => 0, fun _ => 0⟩

end

theorem cuNorm_dA : cuNorm [dA] = 1 := by
  unfold cuNorm dA
  simp

theorem tdot_zero_vec {p q r : ℕ} (T : Fin p → Mat q r) :
    tdot (0 : Vec p) T = 0 := by
  simp [tdot]

theorem exA_bwd_outs (xs : List (Vec 1)) (rp : ℝ) :
    (innerBwd oracleA xs [dA] rp).1 =
      [(bwdStep rp ((0 : Vec 1), (0 : Mat 1 1)) dA).2] := by
  unfold innerBwd oracleA bwd_pass
  rw [cuNorm_dA, mul_one]
  rfl

theorem exA_quu (rp : ℝ) :
    ((dA.cuu + dA.fuᵀ * (0 : Mat 1 1) * dA.fu + tdot (0 : Vec 1) dA.fuu) +
      rp • (1 : Mat 1 1)) = rp • (1 : Mat 1 1) := by
  unfold dA
  simp [tdot_zero_vec]

theorem exA_out_gain (rp : ℝ) :
    ((bwdStep rp ((0 : Vec 1), (0 : Mat 1 1)) dA).2).gain = 0 := by
  show -(_ * (dA.cxu + dA.fxᵀ * (0 : Mat 1 1) * dA.fu +
    tdot (0 : Vec 1) dA.fxu)ᵀ) = 0
  unfold dA
  simp [tdot_zero_vec]

theorem exA_out_ff (rp : ℝ) :
    ((bwdStep rp ((0 : Vec 1), (0 : Mat 1 1)) dA).2).ff = fun _ => -rp⁻¹ := by
  show -((((dA.cuu + dA.fuᵀ * (0 : Mat 1 1) * dA.fu +
      tdot (0 : Vec 1) dA.fuu) + rp • (1 : Mat 1 1))⁻¹) *ᵥ
      (dA.cu + dA.fuᵀ *ᵥ (0 : Vec 1))) = fun _ => -rp⁻¹
  rw [exA_quu, mat1_smul_one_inv]
  funext i
  have hcu : dA.cu + dA.fuᵀ *ᵥ (0 : Vec 1) = fun _ => (1 : ℝ) := by
    unfold dA
    simp
  rw [hcu, mat1_smul_one_mulVec]
  simp

theorem exA_out_Qu (rp : ℝ) :
    ((bwdStep rp ((0 : Vec 1), (0 : Mat 1 1)) dA).2).Qu = fun _ => 1 := by
  show dA.cu + dA.fuᵀ *ᵥ (0 : Vec 1) = fun _ => (1 : ℝ)
  unfold dA
  simp

theorem exA_huNorm (xs : List (Vec 1)) (rp : ℝ) :
    huNorm (innerBwd oracleA xs [dA] rp).1 = 1 := by
  rw [exA_bwd_outs, huNorm]
  simp only [List.map_cons, List.map_nil, exA_out_Qu]
  norm_num [List.ofFn_succ, List.ofFn_zero]

theorem exA_candidate_t (x0 x1 : Vec 1) (t rp : ℝ) :
    innerCandidate exA oracleA [x0, x1] [fun _ => t] [dA] rp =
      ([x0, 0], [fun _ => t - rp⁻¹]) := by
  unfold innerCandidate
  rw [exA_bwd_outs]
  simp only [List.map_cons, List.map_nil, exA_out_gain, exA_out_ff]
  unfold nonlin_rollout
  have hdl : ([x0, x1] : List (Vec 1)).dropLast = [x0] := rfl
  have hhd : ([x0, x1] : List (Vec 1)).headD 0 = x0 := rfl
  rw [hdl, hhd]
  have hscan : rolloutScan dynA x0 [(0 : Mat 1 1)] [fun _ => -rp⁻¹] [x0]
      [fun _ => t] =
      (x0 :: (rolloutScan dynA
        (dynA x0 ((fun _ => t) + (fun _ => -rp⁻¹) +
          (0 : Mat 1 1) *ᵥ (x0 - x0))) [] [] [] []).1,
       ((fun _ => t) + (fun _ => -rp⁻¹) + (0 : Mat 1 1) *ᵥ (x0 - x0)) ::
        (rolloutScan dynA (dynA x0 _) [] [] [] []).2) := rfl
  show rolloutScan exA.dynamics x0 [(0 : Mat 1 1)] [fun _ => -rp⁻¹] [x0]
      [fun _ => t] = ([x0, 0], [fun _ => t - rp⁻¹])
  have hu : ((fun _ => t) + (fun _ => -rp⁻¹) +
      (0 : Mat 1 1) *ᵥ (x0 - x0) : Vec 1) = fun _ => t - rp⁻¹ := by
    funext i
    simp [sub_eq_add_neg]
  show (x0 :: (rolloutScan exA.dynamics
      (exA.dynamics x0 ((fun _ => t) + (fun _ => -rp⁻¹) +
        (0 : Mat 1 1) *ᵥ (x0 - x0))) [] [] [] []).1,
    ((fun _ => t) + (fun _ => -rp⁻¹) + (0 : Mat 1 1) *ᵥ (x0 - x0)) ::
      (rolloutScan exA.dynamics (exA.dynamics x0 _) [] [] [] []).2) =
    ([x0, 0], [fun _ => t - rp⁻¹])
  rw [hu]
  rfl

theorem exA_cand_infeasible (x0 : Vec 1) (t rp : ℝ) (ht0 : -1000 ≤ t)
    (ht1 : t ≤ 0) (hrp1 : 1 ≤ rp) (hrp2 : rp ≤ 1e16) :
    ¬ check_feasibility exA [x0, (0 : Vec 1)] [fun _ => t - rp⁻¹] := by
  intro h
  have hmem : consA x0 (fun _ => t - rp⁻¹) ∈
      List.zipWith (fun x u => exA.constraints x u)
        ([x0, (0 : Vec 1)] : List (Vec 1)).dropLast
        [fun _ => t - rp⁻¹] := by
    show consA x0 (fun _ => t - rp⁻¹) ∈ [consA x0 (fun _ => t - rp⁻¹)]
    exact List.mem_singleton_self _
  have hval := h _ hmem 0
  have hrpos : (0 : ℝ) < rp := lt_of_lt_of_le one_pos hrp1
  have hinv1 : rp⁻¹ ≤ 1 := inv_le_one hrp1
  have hinv2 : (1e-16 : ℝ) ≤ rp⁻¹ := by
    rw [show (1e-16 : ℝ) = (1e16 : ℝ)⁻¹ by norm_num]
    exact inv_le_inv_of_le hrpos hrp2
  have hsneg : t - rp⁻¹ < 0 := by linarith
  have hsbig : (0 : ℝ) < t - rp⁻¹ + 1e20 := by linarith
  have : (0 : ℝ) < consA x0 (fun _ => t - rp⁻¹) 0 := by
    unfold consA
    have := mul_pos (neg_pos.mpr hsneg) hsbig
    simpa [neg_mul] using this
  linarith

theorem exA_body_fields (bp cost reg_inc t : ℝ) (v : InnerVal 1 1)
    (ht0 : -1000 ≤ t) (ht1 : t ≤ 0) (hrp1 : 1 ≤ v.rp) (hrp2 : v.rp ≤ 1e16) :
    (while_inner_loop exA oracleA bp [0, 0] [fun _ => t] cost [dA] reg_inc
      v).xs = [0, 0] ∧
    (while_inner_loop exA oracleA bp [0, 0] [fun _ => t] cost [dA] reg_inc
      v).us = [fun _ => t - v.rp⁻¹] ∧
    (¬ (while_inner_loop exA oracleA bp [0, 0] [fun _ => t] cost [dA]
      reg_inc v).succ) ∧
    (while_inner_loop exA oracleA bp [0, 0] [fun _ => t] cost [dA] reg_inc
      v).hu = 1 ∧
    (while_inner_loop exA oracleA bp [0, 0] [fun _ => t] cost [dA] reg_inc
      v).rp = clip (v.rp * reg_inc) (1e-16) (1e16) ∧
    (while_inner_loop exA oracleA bp [0, 0] [fun _ => t] cost [dA] reg_inc
      v).rinc = 2 * v.rinc ∧
    (while_inner_loop exA oracleA bp [0, 0] [fun _ => t] cost [dA] reg_inc
      v).counter = v.counter + 1 := by
  have hcand := exA_candidate_t 0 0 t v.rp
  have hinf : ¬ check_feasibility exA
      (innerCandidate exA oracleA [0, 0] [fun _ => t] [dA] v.rp).1
      (innerCandidate exA oracleA [0, 0] [fun _ => t] [dA] v.rp).2 := by
    rw [hcand]
    exact exA_cand_infeasible 0 t v.rp ht0 ht1 hrp1 hrp2
  have hnot : ¬ innerAccept exA oracleA bp [0, 0] [fun _ => t] cost [dA]
      v.rp := innerAccept_not_of_infeasible _ _ _ _ _ _ _ _ hinf
  refine ⟨?_, ?_, ?_, ?_, ?_, ?_, rfl⟩
  · show (innerCandidate exA oracleA [0, 0] [fun _ => t] [dA] v.rp).1 = _
    rw [hcand]
  · show (innerCandidate exA oracleA [0, 0] [fun _ => t] [dA] v.rp).2 = _
    rw [hcand]
  · exact hnot
  · exact exA_huNorm _ _
  · show clip (if innerAccept exA oracleA bp [0, 0] [fun _ => t] cost [dA]
      v.rp then _ else v.rp * reg_inc) (1e-16) (1e16) = _
    rw [if_neg hnot]
  · show (if innerAccept exA oracleA bp [0, 0] [fun _ => t] cost [dA]
      v.rp then (2 : ℝ) else 2 * v.rinc) = _
    rw [if_neg hnot]

/-- Invariant of the globalization loop at instance A with nominal control
value `t`: never accepted, regularization within `[1, 1e16]`, growth
multiplier at least 2, and once the first body has run the carried
candidate is the infeasible one. -/
def InvA (t : ℝ) (v : InnerVal 1 1) : Prop :=
  (¬ v.succ) ∧ 1 ≤ v.rp ∧ v.rp ≤ 1e16 ∧ 2 ≤ v.rinc ∧
  (1 ≤ v.counter → v.xs = [0, 0] ∧ v.hu = 1 ∧
    ∃ cc : ℝ, v.us = [fun _ => cc] ∧ t - 1 ≤ cc ∧ cc ≤ t - 1e-16)

theorem exA_body_preserves (bp cost reg_inc t : ℝ)
    (hreg : 2 ≤ reg_inc) (ht0 : -1000 ≤ t) (ht1 : t ≤ 0)
    (v : InnerVal 1 1) (hv : InvA t v) :
    InvA t (while_inner_loop exA oracleA bp [0, 0] [fun _ => t] cost [dA]
      reg_inc v) := by
  obtain ⟨hsucc, hrp1, hrp2, hrinc, _⟩ := hv
  obtain ⟨hxs, hus, hnsucc, hhu, hrp, hri, hct⟩ :=
    exA_body_fields bp cost reg_inc t v ht0 ht1 hrp1 hrp2
  have hrpos : (0 : ℝ) < v.rp := lt_of_lt_of_le one_pos hrp1
  have hinv1 : v.rp⁻¹ ≤ 1 := inv_le_one hrp1
  have hinv2 : (1e-16 : ℝ) ≤ v.rp⁻¹ := by
    rw [show (1e-16 : ℝ) = (1e16 : ℝ)⁻¹ by norm_num]
    exact inv_le_inv_of_le hrpos hrp2
  refine ⟨hnsucc, ?_, ?_, ?_, fun _ =>
    ⟨hxs, hhu, t - v.rp⁻¹, hus, by linarith, by linarith⟩⟩
  · rw [hrp]
    unfold clip
    have hx2 : (2 : ℝ) ≤ v.rp * reg_inc := by nlinarith
    have hmax : max (v.rp * reg_inc) (1e-16) = v.rp * reg_inc :=
      max_eq_left (by linarith)
    rw [hmax]
    exact le_min (by linarith) (by norm_num)
  · rw [hrp]
    exact (clip_mem (by norm_num)).2.trans (le_refl _)
  · rw [hri]
    linarith

/-- Result of running the globalization loop to exhaustion at instance A:
if it starts under the invariant with enough fuel, it stops with the
counter at exactly 501, still under the invariant (in particular with the
last — infeasible — candidate as its carried trajectory). -/
theorem exA_inner_run (bp cost reg_inc t : ℝ)
    (hreg : 2 ≤ reg_inc) (ht0 : -1000 ≤ t) (ht1 : t ≤ 0) :
    ∀ (f : ℕ) (v : InnerVal 1 1), InvA t v → v.counter ≤ 501 →
      502 ≤ f + v.counter →
      InvA t (iterWhile while_inner_cond
        (while_inner_loop exA oracleA bp [0, 0] [fun _ => t] cost [dA]
          reg_inc) f v) ∧
      (iterWhile while_inner_cond
        (while_inner_loop exA oracleA bp [0, 0] [fun _ => t] cost [dA]
          reg_inc) f v).counter = 501
  | 0, v, hv, hc1, hc2 => absurd hc2 (by omega)
  | (f + 1), v, hv, hc1, hc2 => by
    by_cases hcond : while_inner_cond v
    · have hc500 : v.counter ≤ 500 := by
        by_contra hgt
        exact hcond (Or.inr (by omega))
      have hv' := exA_body_preserves bp cost reg_inc t hreg ht0 ht1 v hv
      have hct : (while_inner_loop exA oracleA bp [0, 0] [fun _ => t] cost
          [dA] reg_inc v).counter = v.counter + 1 := rfl
      have hstep := exA_inner_run bp cost reg_inc t hreg ht0 ht1 f
        (while_inner_loop exA oracleA bp [0, 0] [fun _ => t] cost [dA]
          reg_inc v) hv' (by omega) (by omega)
      simpa only [iterWhile, if_pos hcond] using hstep
    · have hc501 : v.counter = 501 := by
        rcases not_not.mp (fun hn => hcond hn) with hs | hgt
        · exact absurd hs hv.1
        · omega
      rw [iterWhile, if_neg hcond]
      exact ⟨hv, hc501⟩

/-- Invariant of the Newton loop at instance A: the nominal states stay at
the zero trajectory, the nominal control value decreases by at most 1 per
outer iteration while staying strictly negative after the first, and the
Hamiltonian residual is pinned at 1. -/
def InvB (v : OuterVal 1 1) : Prop :=
  v.xs = [0, 0] ∧ 1 ≤ v.rp ∧ v.rp ≤ 1e16 ∧ 2 ≤ v.rinc ∧ v.hu = 1 ∧
  ∃ t : ℝ, v.us = [fun _ => t] ∧ -(v.iters : ℝ) ≤ t ∧ t ≤ 0 ∧
    (1 ≤ v.iters → t ≤ -(1e-16))

theorem exA_ds (bp : ℝ) (u : Vec 1) :
    compute_derivatives oracleA [0, 0] [u] bp = [dA] := rfl

theorem while_body_eq {n m c : ℕ} (ocp : OCPm n m c) (O : DiffOracle n m)
    (bp : ℝ) (v : OuterVal n m) :
    while_body ocp O bp v =
      ⟨(iterWhile while_inner_cond
          (while_inner_loop ocp O bp v.xs v.us (ocp.total_cost v.xs v.us bp)
            (compute_derivatives O v.xs v.us bp) v.rinc) 502
          ⟨v.xs, v.us, False, 0, v.rp, v.rinc, 0⟩).xs,
       (iterWhile while_inner_cond
          (while_inner_loop ocp O bp v.xs v.us (ocp.total_cost v.xs v.us bp)
            (compute_derivatives O v.xs v.us bp) v.rinc) 502
          ⟨v.xs, v.us, False, 0, v.rp, v.rinc, 0⟩).us,
       v.iters + 1,
       (iterWhile while_inner_cond
          (while_inner_loop ocp O bp v.xs v.us (ocp.total_cost v.xs v.us bp)
            (compute_derivatives O v.xs v.us bp) v.rinc) 502
          ⟨v.xs, v.us, False, 0, v.rp, v.rinc, 0⟩).rp,
       (iterWhile while_inner_cond
          (while_inner_loop ocp O bp v.xs v.us (ocp.total_cost v.xs v.us bp)
            (compute_derivatives O v.xs v.us bp) v.rinc) 502
          ⟨v.xs, v.us, False, 0, v.rp, v.rinc, 0⟩).rinc,
       (iterWhile while_inner_cond
          (while_inner_loop ocp O bp v.xs v.us (ocp.total_cost v.xs v.us bp)
            (compute_derivatives O v.xs v.us bp) v.rinc) 502
          ⟨v.xs, v.us, False, 0, v.rp, v.rinc, 0⟩).hu⟩ := rfl

theorem exA_outer_body (bp : ℝ) (v : OuterVal 1 1) (hv : InvB v)
    (hiters : v.iters ≤ 500) :
    InvB (while_body exA oracleA bp v) ∧
    (while_body exA oracleA bp v).iters = v.iters + 1 := by
  obtain ⟨hxs, hrp1, hrp2, hrinc, hhu, t, hus, ht0, ht1, himp⟩ := hv
  rw [while_body_eq, hxs, hus, exA_ds]
  have htlow : (-1000 : ℝ) ≤ t := by
    have hc : (v.iters : ℝ) ≤ 500 := by exact_mod_cast hiters
    linarith
  have hrun := exA_inner_run bp (exA.total_cost [0, 0] [fun _ => t] bp)
    v.rinc t hrinc htlow ht1 502
    ⟨[0, 0], [fun _ => t], False, 0, v.rp, v.rinc, 0⟩
    ⟨not_false, hrp1, hrp2, hrinc,
      fun h => absurd h (show ¬ (1 : ℕ) ≤ 0 by omega)⟩
    (show (0 : ℕ) ≤ 501 by omega) (show 502 ≤ 502 + 0 by omega)
  obtain ⟨⟨hrsucc, hrrp1, hrrp2, hrrinc, hrcc⟩, hrcount⟩ := hrun
  obtain ⟨hrxs, hrhu, cc, hrus, hcc1, hcc2⟩ := hrcc (by omega)
  refine ⟨⟨hrxs, hrrp1, hrrp2, hrrinc, hrhu, cc, hrus, ?_, ?_, fun _ => ?_⟩,
    rfl⟩
  · push_cast
    linarith
  · linarith
  · linarith

theorem exA_outer_run (bp : ℝ) :
    ∀ (f : ℕ) (v : OuterVal 1 1), InvB v → v.iters ≤ 501 →
      502 ≤ f + v.iters →
      InvB (iterWhile while_cond (while_body exA oracleA bp) f v) ∧
      (iterWhile while_cond (while_body exA oracleA bp) f v).iters = 501
  | 0, v, hv, hc1, hc2 => absurd hc2 (by omega)
  | (f + 1), v, hv, hc1, hc2 => by
    by_cases hcond : while_cond v
    · have hc500 : v.iters ≤ 500 := by
        by_contra hgt
        exact hcond (Or.inr (by omega))
      have hstep := exA_outer_body bp v hv hc500
      have hrec := exA_outer_run bp f (while_body exA oracleA bp v) hstep.1
        (by omega) (by omega)
      simpa only [iterWhile, if_pos hcond] using hrec
    · have hc501 : v.iters = 501 := by
        rcases not_not.mp (fun hn => hcond hn) with hs | hgt
        · rw [hv.2.2.2.2.1] at hs
          norm_num at hs
        · omega
      rw [iterWhile, if_neg hcond]
      exact ⟨hv, hc501⟩

/-! ### Claim C2 -/

/-- C2 (amended): every trajectory that the globalization loop returns
through ACCEPTANCE satisfies the constraints at every stage — if the loop
is entered in a not-yet-accepted state and exits with the acceptance flag
set, the returned candidate is feasible.  (On iteration-budget exhaustion
the loop instead returns the last — possibly infeasible — candidate; see
the counterexample.) -/
theorem c2_accepted_trajectories_feasible {n m c : ℕ} (ocp : OCPm n m c)
    (O : DiffOracle n m) (bp : ℝ) (xs : List (Vec n)) (us : List (Vec m))
    (cost : ℝ) (ds : List (Deriv n m)) (reg_inc : ℝ) (f : ℕ)
    (s : InnerVal n m) (hs : ¬ s.succ)
    (hres : (iterWhile while_inner_cond
      (while_inner_loop ocp O bp xs us cost ds reg_inc) f s).succ) :
    check_feasibility ocp
      (iterWhile while_inner_cond
        (while_inner_loop ocp O bp xs us cost ds reg_inc) f s).xs
      (iterWhile while_inner_cond
        (while_inner_loop ocp O bp xs us cost ds reg_inc) f s).us := by
  rcases iterWhile_eq_start_or_body f s with h | ⟨t, ht⟩
  · rw [h] at hres
    exact absurd hres hs
  · rw [ht] at hres ⊢
    by_contra hinf
    exact innerAccept_not_of_infeasible ocp O bp xs us cost ds t.rp hinf hres

theorem exA_infeas_of_neg (a b : Vec 1) (t : ℝ) (h1 : t < 0)
    (h2 : -1e19 < t) : ¬ check_feasibility exA [a, b] [fun _ => t] := by
  intro h
  have hmem : consA a (fun _ => t) ∈
      List.zipWith (fun x u => exA.constraints x u)
        ([a, b] : List (Vec 1)).dropLast [fun _ => t] := by
    show consA a (fun _ => t) ∈ [consA a (fun _ => t)]
    exact List.mem_singleton_self _
  have hval := h _ hmem 0
  have : (0 : ℝ) < consA a (fun _ => t) 0 := by
    unfold consA
    have := mul_pos (neg_pos.mpr h1) (by linarith : (0 : ℝ) < t + 1e20)
    simpa [neg_mul] using this
  linarith

/-- Counterexample to C2 as stated: at instance A (feasible seed, all
candidates infeasible, never accepted), both loops exhaust their iteration
budgets and `ddp` returns the last rejected — infeasible — candidate
trajectory. -/
theorem c2_feasibility_counterexample :
    check_feasibility exA (rollout exA.dynamics [(0 : Vec 1)] 0)
      [(0 : Vec 1)] ∧
    ¬ check_feasibility exA (ddp exA oracleA [(0 : Vec 1)] 0 (0.1 : ℝ)).1
      (ddp exA oracleA [(0 : Vec 1)] 0 (0.1 : ℝ)).2.1 := by
  constructor
  · intro p hp i
    have hz : rollout exA.dynamics [(0 : Vec 1)] 0 = [0, 0] := rfl
    rw [hz] at hp
    have hp' : p = consA 0 0 := by
      simpa using hp
    rw [hp']
    unfold consA
    norm_num
  · have hd : ddp exA oracleA [(0 : Vec 1)] 0 (0.1 : ℝ) =
        ((iterWhile while_cond (while_body exA oracleA (0.1 : ℝ)) 502
          ⟨[0, 0], [(0 : Vec 1)], 0, 1, 2, 1⟩).xs,
         (iterWhile while_cond (while_body exA oracleA (0.1 : ℝ)) 502
          ⟨[0, 0], [(0 : Vec 1)], 0, 1, 2, 1⟩).us,
         (iterWhile while_cond (while_body exA oracleA (0.1 : ℝ)) 502
          ⟨[0, 0], [(0 : Vec 1)], 0, 1, 2, 1⟩).iters) := rfl
    have hinit : InvB (⟨[0, 0], [(0 : Vec 1)], 0, 1, 2, 1⟩ : OuterVal 1 1) := by
      refine ⟨rfl, by norm_num, by norm_num, by norm_num, rfl, 0, rfl, ?_, ?_,
        fun h => absurd h (show ¬ (1 : ℕ) ≤ 0 by omega)⟩
      · show -((0 : ℕ) : ℝ) ≤ 0
        norm_num
      · exact le_refl 0
    have hrun := exA_outer_run (0.1 : ℝ) 502
      ⟨[0, 0], [(0 : Vec 1)], 0, 1, 2, 1⟩ hinit
      (show (0 : ℕ) ≤ 501 by omega) (show 502 ≤ 502 + 0 by omega)
    obtain ⟨⟨hrxs, _, _, _, _, t, hrus, ht0, ht1, himp⟩, hriters⟩ := hrun
    have htneg : t ≤ -(1e-16) := himp (by omega)
    have htlow : (-501 : ℝ) ≤ t := by
      rw [hriters] at ht0
      have : ((501 : ℕ) : ℝ) = 501 := by norm_num
      linarith [ht0, this.ge]
    rw [hd]
    show ¬ check_feasibility exA
      (iterWhile while_cond (while_body exA oracleA (0.1 : ℝ)) 502
        ⟨[0, 0], [(0 : Vec 1)], 0, 1, 2, 1⟩).xs
      (iterWhile while_cond (while_body exA oracleA (0.1 : ℝ)) 502
        ⟨[0, 0], [(0 : Vec 1)], 0, 1, 2, 1⟩).us
    rw [hrxs, hrus]
    exact exA_infeas_of_neg 0 0 t (by linarith) (by linarith)

/-! ### Concrete instance B: one accepted globalization-loop step -/

noncomputable section

/-- Constant-zero dynamics of instance B. -/
def dynB : Vec 1 → Vec 1 → Vec 1 := fun _ _ => 0

/-- Instance B: quadratic control cost, constraints always satisfied. -/
def exB : OCPm 1 1 1 :=
  ⟨dynB, fun _ _ => fun _ => -1, fun _ u _ => (u 0) ^ 2, fun _ => 0,
    fun _ us _ => (us.map (fun u => (u 0) ^ 2)).sum⟩

/-- Derivative bundle of instance B at the nominal control `u = 1`. -/
def dB : Deriv 1 1 :=
  ⟨0, fun _ => 2, 0, (2 : ℝ) • 1, 0, 0, 0, fun _ => 0, fun _ => 0,
    fun _ => 0⟩

/-- Differentiation collaborator for instance B at that nominal point. -/
def oracleB : DiffOracle 1 1 := ⟨fun _ _ _ => dB, fun _ => 0, fun _ => 0⟩

end

theorem cuNorm_dB : cuNorm [dB] = 2 := by
  unfold cuNorm dB
  norm_num
  rw [show (4 : ℝ) = 2 ^ 2 by norm_num]
  exact Real.sqrt_sq (by norm_num)

theorem exB_reg : (1 : ℝ) * cuNorm [dB] = 2 := by
  rw [cuNorm_dB]
  norm_num

theorem exB_outs (xs : List (Vec 1)) :
    (innerBwd oracleB xs [dB] 1).1 =
      [(bwdStep 2 ((0 : Vec 1), (0 : Mat 1 1)) dB).2] := by
  unfold innerBwd oracleB bwd_pass
  rw [exB_reg]
  rfl

theorem exB_quu :
    ((dB.cuu + dB.fuᵀ * (0 : Mat 1 1) * dB.fu + tdot (0 : Vec 1) dB.fuu) +
      (2 : ℝ) • (1 : Mat 1 1)) = (4 : ℝ) • (1 : Mat 1 1) := by
  unfold dB
  have h : ((2 : ℝ) • (1 : Mat 1 1)) + (2 : ℝ) • (1 : Mat 1 1) =
      (4 : ℝ) • (1 : Mat 1 1) := by
    rw [← add_smul]
    norm_num
  simp only [Matrix.transpose_zero, tdot_zero_vec, Matrix.mul_zero,
    Matrix.zero_mul, add_zero, zero_add]
  exact h

theorem exB_out_Qu :
    ((bwdStep 2 ((0 : Vec 1), (0 : Mat 1 1)) dB).2).Qu = fun _ => 2 := by
  show dB.cu + dB.fuᵀ *ᵥ (0 : Vec 1) = fun _ => (2 : ℝ)
  unfold dB
  simp

theorem exB_out_gain :
    ((bwdStep 2 ((0 : Vec 1), (0 : Mat 1 1)) dB).2).gain = 0 := by
  show -(_ * (dB.cxu + dB.fxᵀ * (0 : Mat 1 1) * dB.fu +
    tdot (0 : Vec 1) dB.fxu)ᵀ) = 0
  unfold dB
  simp [tdot_zero_vec]

theorem exB_out_ff :
    ((bwdStep 2 ((0 : Vec 1), (0 : Mat 1 1)) dB).2).ff =
      fun _ => -(1 / 2 : ℝ) := by
  show -((((dB.cuu + dB.fuᵀ * (0 : Mat 1 1) * dB.fu +
      tdot (0 : Vec 1) dB.fuu) + (2 : ℝ) • (1 : Mat 1 1))⁻¹) *ᵥ
      (dB.cu + dB.fuᵀ *ᵥ (0 : Vec 1))) = fun _ => -(1 / 2 : ℝ)
  rw [exB_quu, mat1_smul_one_inv]
  have hcu : dB.cu + dB.fuᵀ *ᵥ (0 : Vec 1) = fun _ => (2 : ℝ) := by
    unfold dB
    simp
  rw [hcu, mat1_smul_one_mulVec]
  funext i
  norm_num

theorem exB_out_dV :
    ((bwdStep 2 ((0 : Vec 1), (0 : Mat 1 1)) dB).2).dV = -(1 / 2 : ℝ) := by
  show -(1 / 2) * ((dB.cu + dB.fuᵀ *ᵥ (0 : Vec 1)) ⬝ᵥ
      ((((dB.cuu + dB.fuᵀ * (0 : Mat 1 1) * dB.fu +
        tdot (0 : Vec 1) dB.fuu) + (2 : ℝ) • (1 : Mat 1 1))⁻¹) *ᵥ
      (dB.cu + dB.fuᵀ *ᵥ (0 : Vec 1)))) = -(1 / 2 : ℝ)
  rw [exB_quu, mat1_smul_one_inv]
  have hcu : dB.cu + dB.fuᵀ *ᵥ (0 : Vec 1) = fun _ => (2 : ℝ) := by
    unfold dB
    simp
  rw [hcu, mat1_smul_one_mulVec, vec1_dot]
  norm_num

theorem exB_out_posdef :
    ((bwdStep 2 ((0 : Vec 1), (0 : Mat 1 1)) dB).2).posdef := by
  show ((dB.cuu + dB.fuᵀ * (0 : Mat 1 1) * dB.fu +
      tdot (0 : Vec 1) dB.fuu) + (2 : ℝ) • (1 : Mat 1 1)).PosDef
  rw [exB_quu, mat1_posdef_iff]
  norm_num

theorem exB_pred (xs : List (Vec 1)) :
    (innerBwd oracleB xs [dB] 1).2.1 = -(1 / 2 : ℝ) := by
  unfold innerBwd oracleB bwd_pass
  rw [exB_reg]
  show (List.map BwdOut.dV
    [(bwdStep 2 ((0 : Vec 1), (0 : Mat 1 1)) dB).2]).sum = -(1 / 2 : ℝ)
  rw [List.map_cons, List.map_nil, List.sum_cons, List.sum_nil]
  show ((bwdStep 2 ((0 : Vec 1), (0 : Mat 1 1)) dB).2).dV + 0 = -(1 / 2 : ℝ)
  rw [exB_out_dV]
  norm_num

theorem exB_feasBwd (xs : List (Vec 1)) :
    (innerBwd oracleB xs [dB] 1).2.2 := by
  unfold innerBwd oracleB bwd_pass
  rw [exB_reg]
  show ∀ o ∈ (scanr (bwdStep 2) ((0 : Vec 1), (0 : Mat 1 1)) [dB]).2,
    o.posdef
  intro o ho
  have : o = (bwdStep 2 ((0 : Vec 1), (0 : Mat 1 1)) dB).2 := by
    simpa [scanr] using ho
  rw [this]
  exact exB_out_posdef

theorem exB_candidate :
    innerCandidate exB oracleB [0, 0] [fun _ => (1 : ℝ)] [dB] 1 =
      ([0, 0], [fun _ => (1 / 2 : ℝ)]) := by
  unfold innerCandidate
  rw [exB_outs]
  simp only [List.map_cons, List.map_nil, exB_out_gain, exB_out_ff]
  unfold nonlin_rollout
  show rolloutScan exB.dynamics 0 [(0 : Mat 1 1)] [fun _ => -(1 / 2 : ℝ)]
      [0] [fun _ => (1 : ℝ)] = ([0, 0], [fun _ => (1 / 2 : ℝ)])
  have hu : ((fun _ => (1 : ℝ)) + (fun _ => -(1 / 2 : ℝ)) +
      (0 : Mat 1 1) *ᵥ ((0 : Vec 1) - 0) : Vec 1) =
      fun _ => (1 / 2 : ℝ) := by
    funext i
    simp
    norm_num
  show ((0 : Vec 1) :: (rolloutScan exB.dynamics
      (exB.dynamics 0 ((fun _ => (1 : ℝ)) + (fun _ => -(1 / 2 : ℝ)) +
        (0 : Mat 1 1) *ᵥ ((0 : Vec 1) - 0))) [] [] [] []).1,
    ((fun _ => (1 : ℝ)) + (fun _ => -(1 / 2 : ℝ)) +
      (0 : Mat 1 1) *ᵥ ((0 : Vec 1) - 0)) ::
      (rolloutScan exB.dynamics (exB.dynamics 0 _) [] [] [] []).2) =
    ([0, 0], [fun _ => (1 / 2 : ℝ)])
  rw [hu]
  rfl

theorem exB_cost (bp : ℝ) :
    exB.total_cost [0, 0] [fun _ => (1 : ℝ)] bp = 1 := by
  show ((([fun _ => (1 : ℝ)] : List (Vec 1)).map
    (fun u => (u 0) ^ 2)).sum) = 1
  norm_num

theorem exB_cand_cost (bp : ℝ) :
    candCost exB bp [0, 0] [fun _ => (1 / 2 : ℝ)] =
      ((1 / 4 : ℝ) : EReal) := by
  have hfeas : check_feasibility exB [0, 0] [fun _ => (1 / 2 : ℝ)] := by
    intro p hp i
    have hp' : p = fun _ => (-1 : ℝ) := by
      simpa using hp
    rw [hp']
    norm_num
  rw [candCost, if_pos hfeas]
  have : exB.total_cost [0, 0] [fun _ => (1 / 2 : ℝ)] bp = 1 / 4 := by
    show ((([fun _ => (1 / 2 : ℝ)] : List (Vec 1)).map
      (fun u => (u 0) ^ 2)).sum) = 1 / 4
    norm_num
  rw [this]

theorem exB_accept (bp : ℝ) :
    innerAccept exB oracleB bp [0, 0] [fun _ => (1 : ℝ)]
      (exB.total_cost [0, 0] [fun _ => (1 : ℝ)] bp) [dB] 1 := by
  constructor
  · rw [innerRatio, exB_candidate]
    show (0 : EReal) < ediv
      (candCost exB bp [0, 0] [fun _ => (1 / 2 : ℝ)] -
        ((exB.total_cost [0, 0] [fun _ => (1 : ℝ)] bp : ℝ) : EReal))
      (innerBwd oracleB [0, 0] [dB] 1).2.1
    rw [exB_cand_cost, exB_cost, exB_pred]
    have hsub : ((1 / 4 : ℝ) : EReal) - ((1 : ℝ) : EReal) =
        ((-(3 / 4) : ℝ) : EReal) := by
      rw [← EReal.coe_sub]
      norm_num
    rw [hsub, ediv_coe_of_ne (by norm_num : -(1 / 2 : ℝ) ≠ 0)]
    rw [show (-(3 / 4) : ℝ) * (-(1 / 2 : ℝ))⁻¹ = 3 / 2 by norm_num]
    exact EReal.coe_pos.mpr (by norm_num)
  · exact exB_feasBwd [0, 0]

theorem exA_witness_infeas :
    ¬ check_feasibility exA
      (innerCandidate exA oracleA [0, 0] [fun _ => (0 : ℝ)] [dA] 1).1
      (innerCandidate exA oracleA [0, 0] [fun _ => (0 : ℝ)] [dA] 1).2 := by
  rw [exA_candidate_t 0 0 0 1]
  exact exA_cand_infeasible 0 0 1 (by norm_num) (by norm_num) (by norm_num)
    (by norm_num)

/-- Witness for C4: at instance A the first candidate is infeasible, the
theorem assigns it cost `+∞` and rejects it. -/
theorem c4_infeasible_never_accepted_witness :
    (¬ check_feasibility exA
      (innerCandidate exA oracleA [0, 0] [fun _ => (0 : ℝ)] [dA] 1).1
      (innerCandidate exA oracleA [0, 0] [fun _ => (0 : ℝ)] [dA] 1).2) ∧
    candCost exA 1
      (innerCandidate exA oracleA [0, 0] [fun _ => (0 : ℝ)] [dA] 1).1
      (innerCandidate exA oracleA [0, 0] [fun _ => (0 : ℝ)] [dA] 1).2 = ⊤ ∧
    ¬ (while_inner_loop exA oracleA 1 [0, 0] [fun _ => (0 : ℝ)] 0 [dA] 2
      ⟨[0, 0], [fun _ => (0 : ℝ)], False, 0, 1, 2, 0⟩).succ :=
  ⟨exA_witness_infeas,
    (c4_infeasible_never_accepted exA oracleA 1 [0, 0] [fun _ => (0 : ℝ)] 0
      [dA] 2 ⟨[0, 0], [fun _ => (0 : ℝ)], False, 0, 1, 2, 0⟩
      exA_witness_infeas).1,
    (c4_infeasible_never_accepted exA oracleA 1 [0, 0] [fun _ => (0 : ℝ)] 0
      [dA] 2 ⟨[0, 0], [fun _ => (0 : ℝ)], False, 0, 1, 2, 0⟩
      exA_witness_infeas).2⟩

/-- Witness for C5: at instance B the first candidate is accepted and its
cost (1/4) is strictly below the nominal cost (1). -/
theorem c5_accepted_strict_descent_witness :
    (while_inner_loop exB oracleB 1 [0, 0] [fun _ => (1 : ℝ)]
      (exB.total_cost [0, 0] [fun _ => (1 : ℝ)] 1) [dB] 2
      ⟨[0, 0], [fun _ => (1 : ℝ)], False, 0, 1, 2, 0⟩).succ ∧
    exB.total_cost
      (innerCandidate exB oracleB [0, 0] [fun _ => (1 : ℝ)] [dB] 1).1
      (innerCandidate exB oracleB [0, 0] [fun _ => (1 : ℝ)] [dB] 1).2 1 <
      exB.total_cost [0, 0] [fun _ => (1 : ℝ)] 1 :=
  ⟨exB_accept 1,
    c5_accepted_strict_descent exB oracleB 1 [0, 0] [fun _ => (1 : ℝ)] [dB]
      2 ⟨[0, 0], [fun _ => (1 : ℝ)], False, 0, 1, 2, 0⟩ (exB_accept 1)⟩

theorem exB_loop_result :
    iterWhile while_inner_cond
      (while_inner_loop exB oracleB 1 [0, 0] [fun _ => (1 : ℝ)]
        (exB.total_cost [0, 0] [fun _ => (1 : ℝ)] 1) [dB] 2) 502
      ⟨[0, 0], [fun _ => (1 : ℝ)], False, 0, 1, 2, 0⟩ =
      while_inner_loop exB oracleB 1 [0, 0] [fun _ => (1 : ℝ)]
        (exB.total_cost [0, 0] [fun _ => (1 : ℝ)] 1) [dB] 2
        ⟨[0, 0], [fun _ => (1 : ℝ)], False, 0, 1, 2, 0⟩ := by
  have hcs : while_inner_cond
      (⟨[0, 0], [fun _ => (1 : ℝ)], False, 0, 1, 2, 0⟩ : InnerVal 1 1) := by
    intro hor
    rcases hor with hs | hc
    · exact hs
    · exact absurd hc (by decide)
  have hw : ¬ while_inner_cond
      (while_inner_loop exB oracleB 1 [0, 0] [fun _ => (1 : ℝ)]
        (exB.total_cost [0, 0] [fun _ => (1 : ℝ)] 1) [dB] 2
        ⟨[0, 0], [fun _ => (1 : ℝ)], False, 0, 1, 2, 0⟩) :=
    fun hc => hc (Or.inl (exB_accept 1))
  have h1 : iterWhile while_inner_cond
      (while_inner_loop exB oracleB 1 [0, 0] [fun _ => (1 : ℝ)]
        (exB.total_cost [0, 0] [fun _ => (1 : ℝ)] 1) [dB] 2) 502
      ⟨[0, 0], [fun _ => (1 : ℝ)], False, 0, 1, 2, 0⟩ =
      iterWhile while_inner_cond
        (while_inner_loop exB oracleB 1 [0, 0] [fun _ => (1 : ℝ)]
          (exB.total_cost [0, 0] [fun _ => (1 : ℝ)] 1) [dB] 2) 501
        (while_inner_loop exB oracleB 1 [0, 0] [fun _ => (1 : ℝ)]
          (exB.total_cost [0, 0] [fun _ => (1 : ℝ)] 1) [dB] 2
          ⟨[0, 0], [fun _ => (1 : ℝ)], False, 0, 1, 2, 0⟩) :=
    iterWhile_step_pos hcs 501
  rw [h1, iterWhile_of_not_cond hw 501]

/-- Witness for the amended C2: at instance B the globalization loop exits
by acceptance on its first iteration and the returned trajectory is
feasible. -/
theorem c2_accepted_trajectories_feasible_witness :
    (¬ (⟨[0, 0], [fun _ => (1 : ℝ)], False, 0, 1, 2, 0⟩ :
      InnerVal 1 1).succ) ∧
    (iterWhile while_inner_cond
      (while_inner_loop exB oracleB 1 [0, 0] [fun _ => (1 : ℝ)]
        (exB.total_cost [0, 0] [fun _ => (1 : ℝ)] 1) [dB] 2) 502
      ⟨[0, 0], [fun _ => (1 : ℝ)], False, 0, 1, 2, 0⟩).succ ∧
    check_feasibility exB
      (iterWhile while_inner_cond
        (while_inner_loop exB oracleB 1 [0, 0] [fun _ => (1 : ℝ)]
          (exB.total_cost [0, 0] [fun _ => (1 : ℝ)] 1) [dB] 2) 502
        ⟨[0, 0], [fun _ => (1 : ℝ)], False, 0, 1, 2, 0⟩).xs
      (iterWhile while_inner_cond
        (while_inner_loop exB oracleB 1 [0, 0] [fun _ => (1 : ℝ)]
          (exB.total_cost [0, 0] [fun _ => (1 : ℝ)] 1) [dB] 2) 502
        ⟨[0, 0], [fun _ => (1 : ℝ)], False, 0, 1, 2, 0⟩).us := by
  have hsucc : (iterWhile while_inner_cond
      (while_inner_loop exB oracleB 1 [0, 0] [fun _ => (1 : ℝ)]
        (exB.total_cost [0, 0] [fun _ => (1 : ℝ)] 1) [dB] 2) 502
      ⟨[0, 0], [fun _ => (1 : ℝ)], False, 0, 1, 2, 0⟩).succ := by
    rw [exB_loop_result]
    exact exB_accept 1
  exact ⟨not_false, hsucc,
    c2_accepted_trajectories_feasible exB oracleB 1 [0, 0]
      [fun _ => (1 : ℝ)] (exB.total_cost [0, 0] [fun _ => (1 : ℝ)] 1) [dB]
      2 502 ⟨[0, 0], [fun _ => (1 : ℝ)], False, 0, 1, 2, 0⟩ not_false hsucc⟩

/-! ### Claim C6 -/

theorem count_cap {α : Type*} (cond : α → Prop) (B : α → α) (count : α → ℕ)
    (hinc : ∀ v, count (B v) = count v + 1) :
    ∀ (f : ℕ) (v : α), ¬ cond (iterWhile cond B f v) ∨
      count (iterWhile cond B f v) = count v + f
  | 0, v => Or.inr rfl
  | (f + 1), v => by
    by_cases hc : cond v
    · rw [iterWhile_step_pos hc]
      rcases count_cap cond B count hinc f (B v) with h | h
      · exact Or.inl h
      · refine Or.inr ?_
        rw [h, hinc v]
        omega
    · rw [iterWhile_of_not_cond hc]
      exact Or.inl hc

theorem exA_inner_count (bp cost reg_inc t : ℝ)
    (hreg : 2 ≤ reg_inc) (ht0 : -1000 ≤ t) (ht1 : t ≤ 0) :
    ∀ (f : ℕ) (v : InnerVal 1 1), InvA t v → f + v.counter ≤ 501 →
      (iterWhile while_inner_cond
        (while_inner_loop exA oracleA bp [0, 0] [fun _ => t] cost [dA]
          reg_inc) f v).counter = v.counter + f ∧
      InvA t (iterWhile while_inner_cond
        (while_inner_loop exA oracleA bp [0, 0] [fun _ => t] cost [dA]
          reg_inc) f v)
  | 0, v, hv, _ => ⟨rfl, hv⟩
  | (f + 1), v, hv, hf => by
    have hcond : while_inner_cond v := by
      intro hor
      rcases hor with hs | hgt
      · exact hv.1 hs
      · omega
    rw [iterWhile_step_pos hcond]
    have hv' := exA_body_preserves bp cost reg_inc t hreg ht0 ht1 v hv
    have hct : (while_inner_loop exA oracleA bp [0, 0] [fun _ => t] cost
        [dA] reg_inc v).counter = v.counter + 1 := rfl
    have hrec := exA_inner_count bp cost reg_inc t hreg ht0 ht1 f
      (while_inner_loop exA oracleA bp [0, 0] [fun _ => t] cost [dA]
        reg_inc v) hv' (by omega)
    exact ⟨by omega, hrec.2⟩

/-- Counterexample to C6 as stated: at instance A, after 500 executions of
the globalization-loop body without any acceptance, the loop condition
still holds, so the loop performs a 501st iteration — the cap is 501
body executions, not 500. -/
theorem c6_cap_counterexample :
    while_inner_cond (iterWhile while_inner_cond
      (while_inner_loop exA oracleA 1 [0, 0] [fun _ => (0 : ℝ)] 0 [dA] 2)
      500 ⟨[0, 0], [fun _ => (0 : ℝ)], False, 0, 1, 2, 0⟩) := by
  have hrun := exA_inner_count 1 0 2 0 (by norm_num) (by norm_num)
    (by norm_num) 500 ⟨[0, 0], [fun _ => (0 : ℝ)], False, 0, 1, 2, 0⟩
    ⟨not_false, by norm_num, by norm_num, by norm_num,
      fun h => (Nat.not_succ_le_zero 0 h).elim⟩
    (show 500 + 0 ≤ 501 by omega)
  obtain ⟨hcount, hinv⟩ := hrun
  intro hor
  rcases hor with hs | hgt
  · exact hinv.1 hs
  · rw [hcount] at hgt
    have hz : (⟨[0, 0], [fun _ => (0 : ℝ)], False, 0, 1, 2, 0⟩ :
        InnerVal 1 1).counter = 0 := rfl
    rw [hz] at hgt
    omega

/-- C6 (amended): both loops of `ddp` are capped at 501 body executions
(the exit tests `counter > 500` and `iterations > 500` let the counters
reach 501): from any start of the globalization loop, after 501 body
executions its condition has failed, and likewise for the Newton loop; and
both loops always terminate under these caps — running them with any
larger fuel returns the same value, i.e. the fueled model has reached the
fixed point of the unbounded `lax.while_loop`. -/
theorem c6_loop_caps {n m c : ℕ} (ocp : OCPm n m c) (O : DiffOracle n m)
    (bp : ℝ) (xs : List (Vec n)) (us : List (Vec m)) (cost : ℝ)
    (ds : List (Deriv n m)) (reg_inc : ℝ) (xs0 : List (Vec n))
    (us0 : List (Vec m)) (rp rinc hu0 : ℝ) :
    (¬ while_inner_cond (iterWhile while_inner_cond
      (while_inner_loop ocp O bp xs us cost ds reg_inc) 501
      ⟨xs0, us0, False, 0, rp, rinc, 0⟩)) ∧
    (∀ e, iterWhile while_inner_cond
      (while_inner_loop ocp O bp xs us cost ds reg_inc) (501 + e)
      ⟨xs0, us0, False, 0, rp, rinc, 0⟩ =
      iterWhile while_inner_cond
        (while_inner_loop ocp O bp xs us cost ds reg_inc) 501
        ⟨xs0, us0, False, 0, rp, rinc, 0⟩) ∧
    (¬ while_cond (iterWhile while_cond (while_body ocp O bp) 501
      ⟨xs0, us0, 0, rp, rinc, hu0⟩)) ∧
    (∀ e, iterWhile while_cond (while_body ocp O bp) (501 + e)
      ⟨xs0, us0, 0, rp, rinc, hu0⟩ =
      iterWhile while_cond (while_body ocp O bp) 501
        ⟨xs0, us0, 0, rp, rinc, hu0⟩) := by
  have hinner : ¬ while_inner_cond (iterWhile while_inner_cond
      (while_inner_loop ocp O bp xs us cost ds reg_inc) 501
      ⟨xs0, us0, False, 0, rp, rinc, 0⟩) := by
    rcases count_cap while_inner_cond
      (while_inner_loop ocp O bp xs us cost ds reg_inc) InnerVal.counter
      (fun v => rfl) 501 ⟨xs0, us0, False, 0, rp, rinc, 0⟩ with h | h
    · exact h
    · intro hc
      exact hc (Or.inr (by omega))
  have houter : ¬ while_cond (iterWhile while_cond (while_body ocp O bp)
      501 ⟨xs0, us0, 0, rp, rinc, hu0⟩) := by
    rcases count_cap while_cond (while_body ocp O bp) OuterVal.iters
      (fun v => rfl) 501 ⟨xs0, us0, 0, rp, rinc, hu0⟩ with h | h
    · exact h
    · intro hc
      exact hc (Or.inr (by omega))
  exact ⟨hinner, fun e => iterWhile_stable 501 _ hinner e,
    houter, fun e => iterWhile_stable 501 _ houter e⟩

/-! ### Claim C3 -/

/-- C3: the interior-point continuation initializes the barrier parameter
to `0.1`, runs the Newton loop at the current barrier parameter
warm-starting from the previous controls, divides the barrier parameter by
5 after each step, accumulates the Newton iteration counts, and stops as
soon as the barrier parameter is at most `1e-4`; it therefore performs
exactly 5 (`= ⌈log₅(0.1/1e-4)⌉`) Newton-loop invocations — the barrier
value of the fifth run still exceeds `1e-4` while the next one does not —
and returns the final control sequence with the cumulative iteration
count. -/
theorem c3_interior_point_continuation {n m c : ℕ} (ocp : OCPm n m c)
    (O : DiffOracle n m) (controls : List (Vec m)) (x0 : Vec n) :
    (interior_point_ddp ocp O controls x0 =
      ((ddp ocp O (ddp ocp O (ddp ocp O (ddp ocp O
          (ddp ocp O controls x0 (0.1 : ℝ)).2.1
          x0 (0.1 / 5)).2.1 x0 (0.1 / 5 / 5)).2.1
          x0 (0.1 / 5 / 5 / 5)).2.1 x0 (0.1 / 5 / 5 / 5 / 5)).2.1,
       0 + (ddp ocp O controls x0 (0.1 : ℝ)).2.2 +
        (ddp ocp O (ddp ocp O controls x0 (0.1 : ℝ)).2.1 x0
          (0.1 / 5)).2.2 +
        (ddp ocp O (ddp ocp O (ddp ocp O controls x0 (0.1 : ℝ)).2.1 x0
          (0.1 / 5)).2.1 x0 (0.1 / 5 / 5)).2.2 +
        (ddp ocp O (ddp ocp O (ddp ocp O (ddp ocp O controls x0
          (0.1 : ℝ)).2.1 x0 (0.1 / 5)).2.1 x0 (0.1 / 5 / 5)).2.1 x0
          (0.1 / 5 / 5 / 5)).2.2 +
        (ddp ocp O (ddp ocp O (ddp ocp O (ddp ocp O (ddp ocp O controls x0
          (0.1 : ℝ)).2.1 x0 (0.1 / 5)).2.1 x0 (0.1 / 5 / 5)).2.1 x0
          (0.1 / 5 / 5 / 5)).2.1 x0 (0.1 / 5 / 5 / 5 / 5)).2.2)) ∧
    ((0.1 / 5 / 5 / 5 / 5 : ℝ) > 1e-4) ∧
    ((0.1 / 5 / 5 / 5 / 5 / 5 : ℝ) ≤ 1e-4) := by
  refine ⟨?_, by norm_num, by norm_num⟩
  set d1 := ddp ocp O controls x0 (0.1 : ℝ) with hd1
  set d2 := ddp ocp O d1.2.1 x0 (0.1 / 5) with hd2
  set d3 := ddp ocp O d2.2.1 x0 (0.1 / 5 / 5) with hd3
  set d4 := ddp ocp O d3.2.1 x0 (0.1 / 5 / 5 / 5) with hd4
  set d5 := ddp ocp O d4.2.1 x0 (0.1 / 5 / 5 / 5 / 5) with hd5
  have e6 : iterWhile (ip_cond (m := m)) (ip_body ocp O x0) 6
      (controls, (0.1 : ℝ), (0 : ℕ)) =
      iterWhile ip_cond (ip_body ocp O x0) 5
        (d1.2.1, (0.1 / 5 : ℝ), 0 + d1.2.2) :=
    iterWhile_step_pos (show ip_cond (controls, (0.1 : ℝ), (0 : ℕ)) by
      norm_num [ip_cond]) 5
  have e5 : iterWhile (ip_cond (m := m)) (ip_body ocp O x0) 5
      (d1.2.1, (0.1 / 5 : ℝ), 0 + d1.2.2) =
      iterWhile ip_cond (ip_body ocp O x0) 4
        (d2.2.1, (0.1 / 5 / 5 : ℝ), 0 + d1.2.2 + d2.2.2) :=
    iterWhile_step_pos (show ip_cond (d1.2.1, (0.1 / 5 : ℝ), 0 + d1.2.2) by
      norm_num [ip_cond]) 4
  have e4 : iterWhile (ip_cond (m := m)) (ip_body ocp O x0) 4
      (d2.2.1, (0.1 / 5 / 5 : ℝ), 0 + d1.2.2 + d2.2.2) =
      iterWhile ip_cond (ip_body ocp O x0) 3
        (d3.2.1, (0.1 / 5 / 5 / 5 : ℝ), 0 + d1.2.2 + d2.2.2 + d3.2.2) :=
    iterWhile_step_pos (show ip_cond
      (d2.2.1, (0.1 / 5 / 5 : ℝ), 0 + d1.2.2 + d2.2.2) by
      norm_num [ip_cond]) 3
  have e3 : iterWhile (ip_cond (m := m)) (ip_body ocp O x0) 3
      (d3.2.1, (0.1 / 5 / 5 / 5 : ℝ), 0 + d1.2.2 + d2.2.2 + d3.2.2) =
      iterWhile ip_cond (ip_body ocp O x0) 2
        (d4.2.1, (0.1 / 5 / 5 / 5 / 5 : ℝ),
          0 + d1.2.2 + d2.2.2 + d3.2.2 + d4.2.2) :=
    iterWhile_step_pos (show ip_cond
      (d3.2.1, (0.1 / 5 / 5 / 5 : ℝ), 0 + d1.2.2 + d2.2.2 + d3.2.2) by
      norm_num [ip_cond]) 2
  have e2 : iterWhile (ip_cond (m := m)) (ip_body ocp O x0) 2
      (d4.2.1, (0.1 / 5 / 5 / 5 / 5 : ℝ),
        0 + d1.2.2 + d2.2.2 + d3.2.2 + d4.2.2) =
      iterWhile ip_cond (ip_body ocp O x0) 1
        (d5.2.1, (0.1 / 5 / 5 / 5 / 5 / 5 : ℝ),
          0 + d1.2.2 + d2.2.2 + d3.2.2 + d4.2.2 + d5.2.2) :=
    iterWhile_step_pos (show ip_cond
      (d4.2.1, (0.1 / 5 / 5 / 5 / 5 : ℝ),
        0 + d1.2.2 + d2.2.2 + d3.2.2 + d4.2.2) by norm_num [ip_cond]) 1
  have e1 : iterWhile (ip_cond (m := m)) (ip_body ocp O x0) 1
      (d5.2.1, (0.1 / 5 / 5 / 5 / 5 / 5 : ℝ),
        0 + d1.2.2 + d2.2.2 + d3.2.2 + d4.2.2 + d5.2.2) =
      (d5.2.1, (0.1 / 5 / 5 / 5 / 5 / 5 : ℝ),
        0 + d1.2.2 + d2.2.2 + d3.2.2 + d4.2.2 + d5.2.2) :=
    iterWhile_of_not_cond (show ¬ ip_cond
      (d5.2.1, (0.1 / 5 / 5 / 5 / 5 / 5 : ℝ),
        0 + d1.2.2 + d2.2.2 + d3.2.2 + d4.2.2 + d5.2.2) by
      norm_num [ip_cond]) 1
  show ((iterWhile (ip_cond (m := m)) (ip_body ocp O x0) 6
      (controls, (0.1 : ℝ), (0 : ℕ))).1,
    (iterWhile (ip_cond (m := m)) (ip_body ocp O x0) 6
      (controls, (0.1 : ℝ), (0 : ℕ))).2.2) = _
  rw [e6, e5, e4, e3, e2, e1]
